import Mathlib

/-!
# Hypercube quicksort (`A3/quicksort.c`): embedding and verification

The C arrays are modelled as lists of integers whose length is the number of
allocated cells.  Every read or write through an index outside the allocated
cells is reported as `Err.oob`; `MPI_Abort` is reported as `Err.abort`; a message
addressed to a rank outside the communicator is reported as `Err.mpi`.
Loops are structurally recursive on a step budget; a loop that exhausts its
budget reports `Err.fuel`, and every theorem that states a result shows that the
budget passed by the entry point suffices.  Counters and lengths are natural
numbers (they never go below zero in the C code), except the insertion-sort
cursor `j`, which reaches `-1`.  `select_pivot` and `distribute_from_root` are
declared in `quicksort.h` and defined elsewhere; they enter as parameters.  The
output file of `check_and_print` is an environment that answers the `fopen` and
`fwrite` calls, and the calls made on it are logged.
-/

namespace Quicksort

/-! ## The program -/

/-- Ways in which a run can fail to produce a value. -/
inductive Err where
  | oob
  | abort
  | mpi
  | fuel
  deriving DecidableEq, Repr

deriving instance DecidableEq for Except

/-- Read of `a[i]`. -/
def rd {α : Type} (a : List α) (i : Nat) : Except Err α :=
  match a[i]? with
  | some x => .ok x
  | none => .error .oob

/-- Write `a[i] = x`. -/
def wr {α : Type} (a : List α) (i : Nat) (x : α) : Except Err (List α) :=
  if i < a.length then .ok (a.set i x) else .error .oob

/-- Read of `a[i]` with a signed index. -/
def rdI (a : List Int) (i : Int) : Except Err Int :=
  if i < 0 then .error .oob else rd a i.toNat

/-- Write `a[i] = x` with a signed index. -/
def wrI (a : List Int) (i : Int) (x : Int) : Except Err (List Int) :=
  if i < 0 then .error .oob else wr a i.toNat x

/-- Loop state of `merge_ascending`: the counters `i`, `j`, `k` and `result`.
The field `src` is a ghost log that is never read by the code: it records, for
each cell written so far and in the order written, whether the value came from
`v1` (`false`) or from `v2` (`true`). -/
structure MergeState where
  i : Nat
  j : Nat
  k : Nat
  result : List Int
  src : List Bool
  deriving DecidableEq, Repr

/-- First loop: `while (i < n1 && j < n2) result[k++] = (v1[i] <= v2[j]) ? v1[i++] : v2[j++];` -/
def merge_loop1 (v1 : List Int) (n1 : Nat) (v2 : List Int) (n2 : Nat) :
    Nat → MergeState → Except Err MergeState
  | 0, s => if s.i < n1 ∧ s.j < n2 then .error .fuel else .ok s
  | fuel + 1, s =>
    if s.i < n1 ∧ s.j < n2 then do
      let a ← rd v1 s.i
      let b ← rd v2 s.j
      if a ≤ b then do
        let r ← wr s.result s.k a
        merge_loop1 v1 n1 v2 n2 fuel ⟨s.i + 1, s.j, s.k + 1, r, s.src ++ [false]⟩
      else do
        let r ← wr s.result s.k b
        merge_loop1 v1 n1 v2 n2 fuel ⟨s.i, s.j + 1, s.k + 1, r, s.src ++ [true]⟩
    else .ok s

/-- Second loop: `while (i < n1) result[k++] = v1[i++];` -/
def merge_loop2 (v1 : List Int) (n1 : Nat) : Nat → MergeState → Except Err MergeState
  | 0, s => if s.i < n1 then .error .fuel else .ok s
  | fuel + 1, s =>
    if s.i < n1 then do
      let a ← rd v1 s.i
      let r ← wr s.result s.k a
      merge_loop2 v1 n1 fuel ⟨s.i + 1, s.j, s.k + 1, r, s.src ++ [false]⟩
    else .ok s

/-- Third loop: `while (j < n2) result[k++] = v2[j++];` -/
def merge_loop3 (v2 : List Int) (n2 : Nat) : Nat → MergeState → Except Err MergeState
  | 0, s => if s.j < n2 then .error .fuel else .ok s
  | fuel + 1, s =>
    if s.j < n2 then do
      let b ← rd v2 s.j
      let r ← wr s.result s.k b
      merge_loop3 v2 n2 fuel ⟨s.i, s.j + 1, s.k + 1, r, s.src ++ [true]⟩
    else .ok s

/-- Body of `merge_ascending`: `int i = 0, j = 0, k = 0;` followed by the three
loops; returns the final loop state. -/
def merge_run (v1 : List Int) (n1 : Nat) (v2 : List Int) (n2 : Nat)
    (result : List Int) : Except Err MergeState := do
  let s1 ← merge_loop1 v1 n1 v2 n2 (n1 + n2) ⟨0, 0, 0, result, []⟩
  let s2 ← merge_loop2 v1 n1 (n1 + n2) s1
  merge_loop3 v2 n2 (n1 + n2) s2

/-- `void merge_ascending(int *v1, int n1, int *v2, int n2, int *result)`:
the returned list is the content of `result` after the call. -/
def merge_ascending (v1 : List Int) (n1 : Nat) (v2 : List Int) (n2 : Nat)
    (result : List Int) : Except Err (List Int) := do
  let s ← merge_run v1 n1 v2 n2 result
  pure s.result

/-- Loop condition `j >= 0 && elements[j] > key` of the inner loop of `serial_sort`
(the read happens only when `j >= 0`). -/
def serial_sort_cond (key : Int) (j : Int) (elements : List Int) : Except Err Bool :=
  if j ≥ 0 then do
    let x ← rdI elements j
    pure (decide (x > key))
  else pure false

/-- Inner loop of `serial_sort`:
`while (j >= 0 && elements[j] > key) { elements[j + 1] = elements[j]; j--; }`;
returns the final `j` and the array. -/
def serial_sort_inner (key : Int) : Nat → Int → List Int → Except Err (Int × List Int)
  | 0, j, elements => do
    if (← serial_sort_cond key j elements) then .error .fuel else pure (j, elements)
  | fuel + 1, j, elements => do
    if (← serial_sort_cond key j elements) then do
      let x ← rdI elements j
      let elements ← wrI elements (j + 1) x
      serial_sort_inner key fuel (j - 1) elements
    else pure (j, elements)

/-- Outer loop of `serial_sort`: `for (int i = 1; i < n; i++) { int key = elements[i];
int j = i - 1; <inner loop> elements[j + 1] = key; }`. -/
def serial_sort_outer (n : Nat) : Nat → Nat → List Int → Except Err (List Int)
  | 0, i, elements => if i < n then .error .fuel else .ok elements
  | fuel + 1, i, elements =>
    if i < n then do
      let key ← rd elements i
      let (j, elements) ← serial_sort_inner key i ((i : Int) - 1) elements
      let elements ← wrI elements (j + 1) key
      serial_sort_outer n fuel (i + 1) elements
    else .ok elements

/-- `void serial_sort(int *elements, int n)`: the returned list is the array after the call. -/
def serial_sort (elements : List Int) (n : Nat) : Except Err (List Int) :=
  serial_sort_outer n n 1 elements

/-- Binary search of `global_sort`: `while (left < right) { int mid = left + (right - left) / 2;
if ((*elements)[mid] < pivot) left = mid + 1; else right = mid; }`; returns the final `left`. -/
def bsearch_loop (elements : List Int) (pivot : Int) : Nat → Nat → Nat → Except Err Nat
  | 0, left, right => if left < right then .error .fuel else .ok left
  | fuel + 1, left, right =>
    if left < right then do
      let mid := left + (right - left) / 2
      let x ← rd elements mid
      if x < pivot then bsearch_loop elements pivot fuel (mid + 1) right
      else bsearch_loop elements pivot fuel left mid
    else .ok left

/-- Step 3.2 of `global_sort`: `int left = 0, right = n; <binary search>;
left_arr_size = left; right_arr_size = n - left;` returns both sizes. -/
def partition_sizes (elements : List Int) (n : Nat) (pivot : Int) : Except Err (Nat × Nat) := do
  let left ← bsearch_loop elements pivot n 0 n
  pure (left, n - left)

/-- One member of a process group: the array `*elements` it owns and the value it passes
(or, after the call, receives back) as `n`. -/
structure Proc where
  elements : List Int
  n : Nat
  deriving DecidableEq, Repr

/-- Interface of `select_pivot(pivot_strategy, *elements, n, comm)`, declared in the header
and called by rank 0 only: a function of the strategy, the caller's array, `n` and the group
size that returns the index read as the pivot. -/
abbrev PivotSelector := Int → List Int → Nat → Nat → Int

/-- Guard of the configuration error: `size > 1 && size % 2 != 0`. -/
def odd_group (size : Nat) : Bool := decide (size > 1 ∧ size % 2 ≠ 0)

/-- `int color = (rank < size/2) ? 0 : 1;` -/
def color (rank size : Nat) : Nat := if rank < size / 2 then 0 else 1

/-- `int partner_rank = (color == 0) ? rank + size/2 : rank - size/2;` -/
def partner_rank (rank size : Nat) : Nat :=
  if color rank size = 0 then rank + size / 2 else rank - size / 2

/-- `int send_count = (color == 0) ? right_arr_size : left_arr_size;` -/
def send_count (color left_arr_size right_arr_size : Nat) : Nat :=
  if color = 0 then right_arr_size else left_arr_size

/-- `int new_n = (color == 0) ? left_arr_size : right_arr_size + recv_count;`
(in C the conditional operator binds weaker than `+`, so the sum is the else branch). -/
def new_n (color left_arr_size right_arr_size recv_count : Nat) : Nat :=
  if color = 0 then left_arr_size else right_arr_size + recv_count

/-- The `cnt` cells starting at `a + off`, as read by a send of `cnt` elements. -/
def read_range (a : List Int) (off cnt : Nat) : Except Err (List Int) :=
  if off + cnt ≤ a.length then .ok ((a.drop off).take cnt) else .error .oob

/-- What a member holds after steps 3.2 and 3.3 and offers to its partner. -/
structure Local where
  elements : List Int
  left_arr_size : Nat
  right_arr_size : Nat
  color : Nat
  partner_rank : Nat
  send_count : Nat
  sent : List Int
  deriving DecidableEq, Repr

/-- Steps 3.2 and 3.3 on one member, up to the outgoing halves of the two `MPI_Sendrecv`:
`send_ptr = (color == 0) ? (*elements + left_arr_size) : *elements`. -/
def local_partition (pivot : Int) (size rank : Nat) (p : Proc) : Except Err Local := do
  let (left_arr_size, right_arr_size) ← partition_sizes p.elements p.n pivot
  let c := color rank size
  let sc := send_count c left_arr_size right_arr_size
  let sent ← read_range p.elements (if c = 0 then left_arr_size else 0) sc
  pure ⟨p.elements, left_arr_size, right_arr_size, c, partner_rank rank size, sc, sent⟩

/-- Incoming halves of the two `MPI_Sendrecv` and step 3.4 on one member: `recv_count` and
`recv_buff` are what the partner sent, `new_elements = malloc(new_n * sizeof(int))` (its
`new_n` cells, not yet written, are shown as `0`), then the merge; the member continues
with `new_elements` and `new_n`. -/
def exchange_merge (locals : List Local) (me : Local) : Except Err Proc :=
  match locals[me.partner_rank]? with
  | none => .error .mpi
  | some partner => do
    let recv_count := partner.send_count
    let recv_buff := partner.sent
    let nn := new_n me.color me.left_arr_size me.right_arr_size recv_count
    let new_elements := List.replicate nn 0
    if me.color = 0 then do
      let merged ← merge_ascending me.elements me.left_arr_size recv_buff recv_count new_elements
      pure ⟨merged, nn⟩
    else do
      let merged ← merge_ascending recv_buff recv_count
        (me.elements.drop me.left_arr_size) me.right_arr_size new_elements
      pure ⟨merged, nn⟩

/-- Run `f` on every member, in rank order, stopping at the first failure. -/
def mapE {α β : Type} (f : α → Except Err β) : List α → Except Err (List β)
  | [] => .ok []
  | a :: as => do
    let b ← f a
    let bs ← mapE f as
    pure (b :: bs)

/-- Run `f rank member` on every member, ranks counted from `rank`. -/
def mapRanks {α β : Type} (f : Nat → α → Except Err β) : Nat → List α → Except Err (List β)
  | _, [] => .ok []
  | rank, a :: as => do
    let b ← f rank a
    let bs ← mapRanks f (rank + 1) as
    pure (b :: bs)

/-- Steps 3.1 to 3.4 of `global_sort` on a whole group (listed in rank order): rank 0 reads
the pivot, every member partitions, the pairs exchange, every member merges. -/
def global_sort_level (select_pivot : PivotSelector) (pivot_strategy : Int)
    (group : List Proc) : Except Err (List Proc) :=
  match group with
  | [] => .ok []
  | p0 :: _ => do
    let pivot_index := select_pivot pivot_strategy p0.elements p0.n group.length
    let pivot ← rdI p0.elements pivot_index
    let locals ← mapRanks (local_partition pivot group.length) 0 group
    mapE (exchange_merge locals) locals

/-- `int global_sort(int **elements, int n, MPI_Comm comm, int pivot_strategy)` run by all
members of `comm` (listed in rank order).  The result lists, per member, the final
`*elements` and the returned value.  `MPI_Comm_split(comm, color, rank, &sub_comm)` puts the
first `size/2` ranks into one sub-group and the others into the second, in rank order.
The first argument bounds the recursion depth; an empty list stands for no process at
all, for which nothing runs. -/
def global_sort (select_pivot : PivotSelector) (pivot_strategy : Int) :
    Nat → List Proc → Except Err (List Proc)
  | 0, _ => .error .fuel
  | fuel + 1, group =>
    if odd_group group.length then .error .abort
    else if group.length = 1 then .ok group
    else if group.length = 0 then .ok []
    else do
      let next ← global_sort_level select_pivot pivot_strategy group
      let lo ← global_sort select_pivot pivot_strategy fuel (next.take (group.length / 2))
      let hi ← global_sort select_pivot pivot_strategy fuel (next.drop (group.length / 2))
      pure (lo ++ hi)

/-- Interface of `distribute_from_root(global_elements, n, &elements)`, declared in the
header: from the root's array, `n` and the group size, the shard of every rank (rank
order); the value it returns to a rank, `local_n`, is the length of that rank's shard. -/
abbrev Distributor := List Int → Nat → Nat → List (List Int)

/-- The sorting part of `main` for a group of `size` processes and the array read by rank 0:
`n` is the element count broadcast to all ranks, then
`local_n = distribute_from_root(global_elements, n, &elements); serial_sort(elements, local_n);
global_sort(&elements, n, MPI_COMM_WORLD, 1);`.  The recursion budget is the number of
processes. -/
def main (distribute_from_root : Distributor) (select_pivot : PivotSelector)
    (global_elements : List Int) (size : Nat) : Except Err (List Proc) := do
  let n := global_elements.length
  let shards := distribute_from_root global_elements n size
  let sorted ← mapE (fun elements => serial_sort elements elements.length) shards
  global_sort select_pivot 1 sorted.length (sorted.map (fun elements => ⟨elements, n⟩))

/-- The Local Slice of a member after the sort: the first `n` cells of its array, `n` being
the value `global_sort` returned to it. -/
def final_slice (p : Proc) : List Int := p.elements.take p.n


/-- Loop of `sorted_ascending`: `for (int i=1; i<n; i++) { if (elements[i] < elements[i-1])
return 0; } return 1;`, entered at `i`. -/
def sorted_ascending_loop (elements : List Int) (n : Nat) : Nat → Nat → Except Err Int
  | 0, i => if i < n then .error .fuel else .ok 1
  | fuel + 1, i =>
    if i < n then do
      let a ← rd elements i
      let b ← rd elements (i - 1)
      if a < b then .ok 0 else sorted_ascending_loop elements n fuel (i + 1)
    else .ok 1

/-- `int sorted_ascending(int *elements, int n)`. -/
def sorted_ascending (elements : List Int) (n : Nat) : Except Err Int :=
  sorted_ascending_loop elements n n 1

/-- Calls on the output file made by `check_and_print`, in the order made. -/
inductive FileOp where
  | fopen
  | fwrite_count
  | fwrite_data
  | fclose
  deriving DecidableEq, Repr

/-- What the file system answers to `check_and_print`: whether `fopen` returns a stream,
and the values returned by `fwrite(&n, sizeof(int), 1, file)` and by
`fwrite(elements, sizeof(NUMBER), n, file)`. -/
structure FileEnv where
  fopen_ok : Bool
  count_written : Nat
  data_written : Nat
  deriving DecidableEq, Repr

/-- `int check_and_print(int *elements, int n, char *file_name)`: the returned status
(`none` when control reaches the closing brace, where the function has no `return`) and
the calls made on the output file. -/
def check_and_print (env : FileEnv) (elements : List Int) (n : Nat) :
    Except Err (Option Int × List FileOp) := do
  let s ← sorted_ascending elements n
  if s = 0 then pure (some (-1), [])
  else if env.fopen_ok = false then pure (some (-2), [.fopen])
  else if env.count_written ≠ 1 then pure (some (-2), [.fopen, .fwrite_count, .fclose])
  else if env.data_written ≠ n then
    pure (some (-2), [.fopen, .fwrite_count, .fwrite_data, .fclose])
  else pure (none, [.fopen, .fwrite_count, .fwrite_data, .fclose])

/-- The group that `main` hands to `global_sort`: every rank holds its sorted shard and
passes the broadcast element count `n`. -/
def main_group (distribute_from_root : Distributor) (global_elements : List Int)
    (size : Nat) : Except Err (List Proc) := do
  let n := global_elements.length
  let shards := distribute_from_root global_elements n size
  let sorted ← mapE (fun elements => serial_sort elements elements.length) shards
  pure (sorted.map (fun elements => ⟨elements, n⟩))

/-! ## Functional counterparts used in the proofs -/

/-- Buffer `r` with the cells `k, k+1, …` overwritten by `xs`. -/
def splice {α : Type} (r : List α) (k : Nat) (xs : List α) : List α :=
  r.take k ++ xs ++ r.drop (k + xs.length)

/-- Elements of the first input, tagged. -/
def tagL (l : List Int) : List (Int × Bool) := l.map (fun x => (x, false))

/-- Elements of the second input, tagged. -/
def tagR (l : List Int) : List (Int × Bool) := l.map (fun x => (x, true))

/-- Comparison `v1[i] <= v2[j]` of the merge, on tagged values. -/
def leTag (x y : Int × Bool) : Bool := decide (x.1 ≤ y.1)

/-- Comparison `v1[i] <= v2[j]` of the merge. -/
def leInt (a b : Int) : Bool := decide (a ≤ b)

/-- Functional left-biased merge of the unread parts of the two inputs, tagged. -/
def mergeTail (v1 : List Int) (n1 : Nat) (v2 : List Int) (n2 : Nat) (i j : Nat) :
    List (Int × Bool) :=
  List.merge (tagL ((v1.take n1).drop i)) (tagR ((v2.take n2).drop j)) leTag

/-- The tagged output of the merge of `A` and `B`. -/
def mergeTagged (A B : List Int) : List (Int × Bool) :=
  List.merge (tagL A) (tagR B) leTag

/-- Insertion of `key` into a prefix given in reverse order (last cell first): the cells
greater than `key` are passed over, `key` lands behind the first cell not greater. -/
def insRev (key : Int) : List Int → List Int
  | [] => [key]
  | x :: xs => if x > key then x :: insRev key xs else key :: x :: xs

/-- Insertion of `key` into a prefix, scanning from its right end. -/
def insR (pre : List Int) (key : Int) : List Int := (insRev key pre.reverse).reverse

/-- Functional counterpart of `local_partition` on an ascending slice whose length is `n`:
the split index is the number of elements below the pivot. -/
def local_of (pivot : Int) (size rank : Nat) (p : Proc) : Local :=
  let l := p.elements.countP (fun x => decide (x < pivot))
  let c := color rank size
  ⟨p.elements, l, p.n - l, c, partner_rank rank size, send_count c l (p.n - l),
    if c = 0 then p.elements.drop l else p.elements.take l⟩

/-- Functional counterpart of `mapRanks` for a function that cannot fail. -/
def rankMap {α β : Type} (g : Nat → α → β) : Nat → List α → List β
  | _, [] => []
  | rank, a :: as => g rank a :: rankMap g (rank + 1) as

/-- A run that can only fail through a memory access outside the allocated cells. -/
def OnlyOob {α : Type} (r : Except Err α) : Prop := ∀ e, r = .error e → e = .oob

/-! ## Theorems -/

theorem rd_of_lt {α : Type} (a : List α) (i : Nat) (h : i < a.length) :
    rd a i = .ok a[i] := by
  simp [rd, List.getElem?_eq_getElem h]

theorem wr_of_lt {α : Type} (a : List α) (i : Nat) (x : α) (h : i < a.length) :
    wr a i x = .ok (a.set i x) := by
  simp [wr, h]

theorem splice_nil {α : Type} (r : List α) (k : Nat) : splice r k [] = r := by
  simp [splice]

theorem splice_set {α : Type} (r : List α) (k : Nat) (a : α) (xs : List α)
    (h : k < r.length) : splice (r.set k a) (k + 1) xs = splice r k (a :: xs) := by
  unfold splice
  have h0 : (r.set k a).take k = r.take k := by
    apply List.ext_getElem?
    intro i
    rw [List.getElem?_take, List.getElem?_take]
    split
    · rw [List.getElem?_set_ne (by omega)]
    · rfl
  have h1 : (r.set k a).take (k + 1) = r.take k ++ [a] := by
    rw [List.take_succ, h0]
    simp [h]
  have h2 : (r.set k a).drop (k + 1 + xs.length) = r.drop (k + (a :: xs).length) := by
    rw [List.drop_set_of_lt]
    · congr 1; simp; omega
    · omega
  rw [h1, h2]; simp

theorem drop_take_cons {α : Type} (v : List α) (n i : Nat) (hi : i < n)
    (hv : i < v.length) :
    (v.take n).drop i = v[i] :: (v.take n).drop (i + 1) := by
  have hl : i < (v.take n).length := by simp; omega
  rw [List.drop_eq_getElem_cons hl]
  simp [List.getElem_take]

theorem drop_take_all {α : Type} (v : List α) (n : Nat) : (v.take n).drop n = [] := by
  apply List.drop_eq_nil_of_le
  simp

theorem merge_loop2_spec (v1 : List Int) (n1 : Nat) (hn : n1 ≤ v1.length) :
    ∀ (fuel : Nat) (s : MergeState), s.i ≤ n1 → n1 - s.i ≤ fuel →
      s.k + (n1 - s.i) ≤ s.result.length →
      merge_loop2 v1 n1 fuel s =
        .ok ⟨n1, s.j, s.k + (n1 - s.i), splice s.result s.k ((v1.take n1).drop s.i),
          s.src ++ ((v1.take n1).drop s.i).map (fun _ => false)⟩ := by
  intro fuel
  induction fuel with
  | zero =>
    intro s hi hf hk
    have : s.i = n1 := by omega
    obtain ⟨i, j, k, r, src⟩ := s
    simp only at this
    subst this
    simp [merge_loop2, splice_nil, drop_take_all]
  | succ f ih =>
    intro s hi hf hk
    obtain ⟨i, j, k, r, src⟩ := s
    simp only at hi hf hk ⊢
    by_cases h : i < n1
    · have hr : k < r.length := by omega
      simp only [merge_loop2, h, if_true, rd_of_lt v1 i (by omega), wr_of_lt r k _ hr, bind,
        Except.bind]
      rw [ih _ (by simp; omega) (by simp; omega) (by simp; omega)]
      simp only [splice_set _ _ _ _ hr, drop_take_cons v1 n1 i h (by omega), List.map_cons,
        List.append_assoc, List.singleton_append]
      congr 2; omega
    · have : i = n1 := by omega
      subst this
      simp [merge_loop2, splice_nil, drop_take_all]

theorem merge_loop3_spec (v2 : List Int) (n2 : Nat) (hn : n2 ≤ v2.length) :
    ∀ (fuel : Nat) (s : MergeState), s.j ≤ n2 → n2 - s.j ≤ fuel →
      s.k + (n2 - s.j) ≤ s.result.length →
      merge_loop3 v2 n2 fuel s =
        .ok ⟨s.i, n2, s.k + (n2 - s.j), splice s.result s.k ((v2.take n2).drop s.j),
          s.src ++ ((v2.take n2).drop s.j).map (fun _ => true)⟩ := by
  intro fuel
  induction fuel with
  | zero =>
    intro s hi hf hk
    have : s.j = n2 := by omega
    obtain ⟨i, j, k, r, src⟩ := s
    simp only at this
    subst this
    simp [merge_loop3, splice_nil, drop_take_all]
  | succ f ih =>
    intro s hi hf hk
    obtain ⟨i, j, k, r, src⟩ := s
    simp only at hi hf hk ⊢
    by_cases h : j < n2
    · have hr : k < r.length := by omega
      simp only [merge_loop3, h, if_true, rd_of_lt v2 j (by omega), wr_of_lt r k _ hr, bind,
        Except.bind]
      rw [ih _ (by simp; omega) (by simp; omega) (by simp; omega)]
      simp only [splice_set _ _ _ _ hr, drop_take_cons v2 n2 j h (by omega), List.map_cons,
        List.append_assoc, List.singleton_append]
      congr 2; omega
    · have : j = n2 := by omega
      subst this
      simp [merge_loop3, splice_nil, drop_take_all]

theorem merge_loops_spec (v1 : List Int) (n1 : Nat) (v2 : List Int) (n2 : Nat)
    (h1 : n1 ≤ v1.length) (h2 : n2 ≤ v2.length) (f2 f3 : Nat) :
    ∀ (fuel : Nat) (s : MergeState), s.i ≤ n1 → s.j ≤ n2 →
      (n1 - s.i) + (n2 - s.j) ≤ fuel → n1 - s.i ≤ f2 → n2 - s.j ≤ f3 →
      s.k + ((n1 - s.i) + (n2 - s.j)) ≤ s.result.length →
      (merge_loop1 v1 n1 v2 n2 fuel s >>= fun s1 =>
        merge_loop2 v1 n1 f2 s1 >>= fun s2 => merge_loop3 v2 n2 f3 s2) =
        .ok ⟨n1, n2, s.k + ((n1 - s.i) + (n2 - s.j)),
          splice s.result s.k ((mergeTail v1 n1 v2 n2 s.i s.j).map Prod.fst),
          s.src ++ (mergeTail v1 n1 v2 n2 s.i s.j).map Prod.snd⟩ := by
  intro fuel
  induction fuel with
  | zero =>
    intro s hi hj hf hf2 hf3 hk
    obtain ⟨i, j, k, r, src⟩ := s
    simp only at hi hj hf hf2 hf3 hk ⊢
    have e1 : i = n1 := by omega
    have e2 : j = n2 := by omega
    subst e1 e2
    have l2 := merge_loop2_spec v1 i h1 f2 ⟨i, j, k, r, src⟩ (by simp) (by simp) (by simp; omega)
    simp only [Nat.sub_self, Nat.add_zero, drop_take_all, splice_nil, List.map_nil,
      List.append_nil] at l2
    have l3 := merge_loop3_spec v2 j h2 f3 ⟨i, j, k, r, src⟩ (by simp) (by simp) (by simp; omega)
    simp only [Nat.sub_self, Nat.add_zero, drop_take_all, splice_nil, List.map_nil,
      List.append_nil] at l3
    simp [merge_loop1, bind, Except.bind, l2, l3, mergeTail, drop_take_all, tagL, tagR,
      splice_nil]
  | succ f ih =>
    intro s hi hj hf hf2 hf3 hk
    obtain ⟨i, j, k, r, src⟩ := s
    simp only at hi hj hf hf2 hf3 hk ⊢
    by_cases h : i < n1 ∧ j < n2
    · obtain ⟨hi1, hj1⟩ := h
      have hr : k < r.length := by omega
      have hv1 : i < v1.length := by omega
      have hv2 : j < v2.length := by omega
      by_cases hab : v1[i] ≤ v2[j]
      · have step : merge_loop1 v1 n1 v2 n2 (f + 1) ⟨i, j, k, r, src⟩ =
            merge_loop1 v1 n1 v2 n2 f ⟨i + 1, j, k + 1, r.set k (v1[i]),
              src ++ [false]⟩ := by
          simp [merge_loop1, hi1, hj1, rd_of_lt v1 i (by omega), rd_of_lt v2 j (by omega),
            wr_of_lt r k _ hr, bind, Except.bind, hab]
        rw [step, ih _ (by simp; omega) (by simp; omega) (by simp; omega) (by simp; omega)
          (by simp; omega) (by simp; omega)]
        have hm : mergeTail v1 n1 v2 n2 i j =
            (v1[i], false) :: mergeTail v1 n1 v2 n2 (i + 1) j := by
          simp only [mergeTail]
          rw [drop_take_cons v1 n1 i hi1 hv1, drop_take_cons v2 n2 j hj1 hv2]
          simp only [tagL, tagR, List.map_cons]
          rw [List.cons_merge_cons_pos]
          simpa [leTag] using hab
        simp only [hm, List.map_cons, splice_set _ _ _ _ hr, List.append_assoc,
          List.singleton_append]
        congr 2; omega
      · have step : merge_loop1 v1 n1 v2 n2 (f + 1) ⟨i, j, k, r, src⟩ =
            merge_loop1 v1 n1 v2 n2 f ⟨i, j + 1, k + 1, r.set k (v2[j]),
              src ++ [true]⟩ := by
          simp [merge_loop1, hi1, hj1, rd_of_lt v1 i (by omega), rd_of_lt v2 j (by omega),
            wr_of_lt r k _ hr, bind, Except.bind, hab]
        rw [step, ih _ (by simp; omega) (by simp; omega) (by simp; omega) (by simp; omega)
          (by simp; omega) (by simp; omega)]
        have hm : mergeTail v1 n1 v2 n2 i j =
            (v2[j], true) :: mergeTail v1 n1 v2 n2 i (j + 1) := by
          simp only [mergeTail]
          rw [drop_take_cons v1 n1 i hi1 hv1, drop_take_cons v2 n2 j hj1 hv2]
          simp only [tagL, tagR, List.map_cons]
          rw [List.cons_merge_cons_neg]
          simpa [leTag] using hab
        simp only [hm, List.map_cons, splice_set _ _ _ _ hr, List.append_assoc,
          List.singleton_append]
        congr 2; omega
    · have step : merge_loop1 v1 n1 v2 n2 (f + 1) ⟨i, j, k, r, src⟩ = .ok ⟨i, j, k, r, src⟩ := by
        simp [merge_loop1, h]
      rw [step]
      simp only [bind, Except.bind]
      rw [merge_loop2_spec v1 n1 h1 f2 _ hi hf2 (by simp; omega)]
      simp only
      rw [merge_loop3_spec v2 n2 h2 f3 _ (by simpa using hj) (by simpa using hf3) (by
        simp [splice]; omega)]
      by_cases hi1 : i < n1
      · have e2 : j = n2 := by omega
        subst e2
        simp [mergeTail, drop_take_all, tagL, tagR, splice_nil, Function.comp_def]
      · have e1 : i = n1 := by omega
        subst e1
        simp [mergeTail, drop_take_all, tagL, tagR, splice_nil, Function.comp_def]

theorem mergeTail_zero (v1 : List Int) (n1 : Nat) (v2 : List Int) (n2 : Nat) :
    mergeTail v1 n1 v2 n2 0 0 = mergeTagged (v1.take n1) (v2.take n2) := by
  simp [mergeTail, mergeTagged]

theorem mergeTagged_length (A B : List Int) :
    (mergeTagged A B).length = A.length + B.length := by
  simp [mergeTagged, List.length_merge, tagL, tagR]

theorem mergeTagged_fst (A B : List Int) :
    (mergeTagged A B).map Prod.fst = List.merge A B leInt := by
  unfold mergeTagged
  rw [List.map_merge (s := leInt)]
  · simp [tagL, tagR, Function.comp_def]
  · intro a _ b _
    rfl

/-- Closed form of the final state of `merge_ascending`. -/
theorem merge_run_spec (v1 : List Int) (n1 : Nat) (v2 : List Int) (n2 : Nat)
    (result : List Int) (h1 : n1 ≤ v1.length) (h2 : n2 ≤ v2.length)
    (hr : n1 + n2 ≤ result.length) :
    merge_run v1 n1 v2 n2 result =
      .ok ⟨n1, n2, n1 + n2,
        (mergeTagged (v1.take n1) (v2.take n2)).map Prod.fst ++ result.drop (n1 + n2),
        (mergeTagged (v1.take n1) (v2.take n2)).map Prod.snd⟩ := by
  have h := merge_loops_spec v1 n1 v2 n2 h1 h2 (n1 + n2) (n1 + n2) (n1 + n2)
    ⟨0, 0, 0, result, []⟩ (by simp) (by simp) (by simp) (by simp) (by simp) (by simpa using hr)
  unfold merge_run
  rw [h]
  simp [mergeTail_zero, splice, mergeTagged_length]
  congr 1
  omega

/-- Closed form of the output of `merge_ascending`. -/
theorem merge_ascending_spec (v1 : List Int) (n1 : Nat) (v2 : List Int) (n2 : Nat)
    (result : List Int) (h1 : n1 ≤ v1.length) (h2 : n2 ≤ v2.length)
    (hr : n1 + n2 ≤ result.length) :
    merge_ascending v1 n1 v2 n2 result =
      .ok (List.merge (v1.take n1) (v2.take n2) leInt ++ result.drop (n1 + n2)) := by
  unfold merge_ascending
  rw [merge_run_spec v1 n1 v2 n2 result h1 h2 hr]
  simp [bind, Except.bind, pure, Except.pure, mergeTagged_fst]

theorem merge_leInt_sorted (A B : List Int) (hA : A.Sorted (· ≤ ·)) (hB : B.Sorted (· ≤ ·)) :
    (List.merge A B leInt).Sorted (· ≤ ·) := by
  have h := @List.sorted_merge Int leInt
    (fun a b c hab hbc => by
      simp only [leInt, decide_eq_true_eq] at *
      omega)
    (fun a b => by
      simp only [leInt, Bool.or_eq_true, decide_eq_true_eq]
      omega)
    A B
    (hA.imp (fun {a b} hab => by simpa [leInt] using hab))
    (hB.imp (fun {a b} hab => by simpa [leInt] using hab))
  exact h.imp (fun {a b} hab => by simpa [leInt] using hab)

theorem mergeTagged_filter_left (A B : List Int) :
    (mergeTagged A B).filter (fun x => !x.2) = tagL A := by
  unfold mergeTagged
  induction A generalizing B with
  | nil => simp [tagL, tagR, List.filter_eq_nil_iff]
  | cons a A ihA =>
    induction B with
    | nil => simp [tagL, tagR, List.filter_eq_self]
    | cons b B ihB =>
      by_cases h : a ≤ b
      · have e : List.merge (tagL (a :: A)) (tagR (b :: B)) leTag =
            (a, false) :: List.merge (tagL A) (tagR (b :: B)) leTag := by
          simp only [tagL, tagR, List.map_cons]
          rw [List.cons_merge_cons_pos]
          simpa [leTag] using h
        rw [e]
        simp only [List.filter_cons, Bool.not_false, if_true, ihA]
        simp [tagL]
      · have e : List.merge (tagL (a :: A)) (tagR (b :: B)) leTag =
            (b, true) :: List.merge (tagL (a :: A)) (tagR B) leTag := by
          simp only [tagL, tagR, List.map_cons]
          rw [List.cons_merge_cons_neg]
          simpa [leTag] using h
        rw [e]
        simpa [List.filter_cons] using ihB

theorem mergeTagged_filter_right (A B : List Int) :
    (mergeTagged A B).filter (fun x => x.2) = tagR B := by
  unfold mergeTagged
  induction A generalizing B with
  | nil => simp [tagL, tagR, List.filter_eq_self]
  | cons a A ihA =>
    induction B with
    | nil => simp [tagL, tagR, List.filter_eq_nil_iff]
    | cons b B ihB =>
      by_cases h : a ≤ b
      · have e : List.merge (tagL (a :: A)) (tagR (b :: B)) leTag =
            (a, false) :: List.merge (tagL A) (tagR (b :: B)) leTag := by
          simp only [tagL, tagR, List.map_cons]
          rw [List.cons_merge_cons_pos]
          simpa [leTag] using h
        rw [e]
        simpa [List.filter_cons] using ihA (b :: B)
      · have e : List.merge (tagL (a :: A)) (tagR (b :: B)) leTag =
            (b, true) :: List.merge (tagL (a :: A)) (tagR B) leTag := by
          simp only [tagL, tagR, List.map_cons]
          rw [List.cons_merge_cons_neg]
          simpa [leTag] using h
        rw [e]
        simp only [List.filter_cons, if_true, ihB]
        simp [tagR]

/-- In the tagged output no copy of a value taken from `v2` precedes a copy of
the same value taken from `v1`. -/
theorem mergeTagged_left_biased (A B : List Int) (hA : A.Sorted (· ≤ ·)) :
    (mergeTagged A B).Pairwise (fun x y => x.1 = y.1 → x.2 = true → y.2 = true) := by
  unfold mergeTagged
  induction A generalizing B with
  | nil =>
    simp only [tagL, List.map_nil, List.nil_merge, tagR]
    rw [List.pairwise_map]
    exact List.pairwise_of_forall (fun _ _ _ _ => rfl)
  | cons a A ihA =>
    induction B with
    | nil =>
      simp only [tagR, List.map_nil, List.merge_right, tagL]
      rw [List.pairwise_map]
      exact List.pairwise_of_forall (fun _ _ _ h => by simp at h)
    | cons b B ihB =>
      by_cases h : a ≤ b
      · have e : List.merge (tagL (a :: A)) (tagR (b :: B)) leTag =
            (a, false) :: List.merge (tagL A) (tagR (b :: B)) leTag := by
          simp only [tagL, tagR, List.map_cons]
          rw [List.cons_merge_cons_pos]
          simpa [leTag] using h
        rw [e]
        refine List.Pairwise.cons ?_ (ihA (b :: B) (List.Sorted.of_cons hA))
        intro z _ _ hz
        simp at hz
      · have e : List.merge (tagL (a :: A)) (tagR (b :: B)) leTag =
            (b, true) :: List.merge (tagL (a :: A)) (tagR B) leTag := by
          simp only [tagL, tagR, List.map_cons]
          rw [List.cons_merge_cons_neg]
          simpa [leTag] using h
        rw [e]
        refine List.Pairwise.cons ?_ ihB
        intro z hz hzb _
        rw [List.mem_merge] at hz
        rcases hz with hz | hz
        · exfalso
          simp only [tagL, List.mem_map] at hz
          obtain ⟨x, hx, rfl⟩ := hz
          simp only at hzb
          have hax : a ≤ x := by
            rcases List.mem_cons.mp hx with rfl | hx
            · exact le_refl _
            · exact List.rel_of_sorted_cons hA x hx
          omega
        · simp only [tagR, List.mem_map] at hz
          obtain ⟨x, _, rfl⟩ := hz
          rfl

/-- C1: for ascending `A` and `B` (possibly empty) and a `result` buffer with room for
`|A| + |B|` cells, `merge_ascending A |A| B |B| result` returns normally, writes exactly the
first `|A| + |B|` cells of `result` (the cells behind them keep their content), and the
written cells are non-decreasing and a permutation of `A ++ B`. -/
theorem merge_ascending_sorted_perm (A B result : List Int)
    (hA : A.Sorted (· ≤ ·)) (hB : B.Sorted (· ≤ ·))
    (hr : A.length + B.length ≤ result.length) :
    ∃ out : List Int,
      merge_ascending A A.length B B.length result =
        .ok (out ++ result.drop (A.length + B.length)) ∧
      out.length = A.length + B.length ∧
      out.Sorted (· ≤ ·) ∧
      out.Perm (A ++ B) := by
  refine ⟨List.merge A B leInt, ?_, ?_, ?_, ?_⟩
  · have h := merge_ascending_spec A A.length B B.length result (le_refl _) (le_refl _) hr
    simpa using h
  · simp [List.length_merge]
  · exact merge_leInt_sorted A B hA hB
  · exact List.merge_perm_append leInt

/-- Witness of C1 on `[1,3,5]` and `[2,3,4]`. -/
theorem merge_ascending_sorted_perm_witness :
    ∃ out : List Int,
      merge_ascending [1, 3, 5] 3 [2, 3, 4] 3 [0, 0, 0, 0, 0, 0, 9] = .ok (out ++ [9]) ∧
      out.length = 6 ∧ out.Sorted (· ≤ ·) ∧ out.Perm ([1, 3, 5] ++ [2, 3, 4]) :=
  merge_ascending_sorted_perm [1, 3, 5] [2, 3, 4] [0, 0, 0, 0, 0, 0, 9]
    (by decide) (by decide) (by decide)

/-- C2: `merge_ascending` is left-biased.  For ascending `A` and any `B`, the run ends
normally; pairing each written cell with its provenance tag gives a list `T` whose
`v1`-tagged cells are exactly `A` in order and whose `v2`-tagged cells are exactly `B`
in order, and no cell taken from `v2` precedes a cell of equal value taken from `v1`. -/
theorem merge_ascending_left_biased (A B result : List Int)
    (hA : A.Sorted (· ≤ ·)) (hr : A.length + B.length ≤ result.length) :
    ∃ (s : MergeState) (T : List (Int × Bool)),
      merge_run A A.length B B.length result = .ok s ∧
      merge_ascending A A.length B B.length result = .ok s.result ∧
      s.result = T.map Prod.fst ++ result.drop (A.length + B.length) ∧
      s.src = T.map Prod.snd ∧
      T.filter (fun x => !x.2) = A.map (fun x => (x, false)) ∧
      T.filter (fun x => x.2) = B.map (fun x => (x, true)) ∧
      T.Pairwise (fun x y => x.1 = y.1 → x.2 = true → y.2 = true) := by
  have h := merge_run_spec A A.length B B.length result (le_refl _) (le_refl _) hr
  simp only [List.take_length] at h
  refine ⟨_, mergeTagged A B, h, ?_, rfl, rfl, ?_, ?_, ?_⟩
  · simp [merge_ascending, h, bind, Except.bind, pure, Except.pure]
  · exact mergeTagged_filter_left A B
  · exact mergeTagged_filter_right A B
  · exact mergeTagged_left_biased A B hA

/-- Witness of C2 on `[1,3,5]` and `[2,3,4]`. -/
theorem merge_ascending_left_biased_witness :
    ∃ (s : MergeState) (T : List (Int × Bool)),
      merge_run [1, 3, 5] 3 [2, 3, 4] 3 [0, 0, 0, 0, 0, 0, 9] = .ok s ∧
      merge_ascending [1, 3, 5] 3 [2, 3, 4] 3 [0, 0, 0, 0, 0, 0, 9] = .ok s.result ∧
      s.result = T.map Prod.fst ++ [9] ∧
      s.src = T.map Prod.snd ∧
      T.filter (fun x => !x.2) = [(1, false), (3, false), (5, false)] ∧
      T.filter (fun x => x.2) = [(2, true), (3, true), (4, true)] ∧
      T.Pairwise (fun x y => x.1 = y.1 → x.2 = true → y.2 = true) :=
  merge_ascending_left_biased [1, 3, 5] [2, 3, 4] [0, 0, 0, 0, 0, 0, 9] (by decide) (by decide)

theorem rdI_natCast (a : List Int) (i : Nat) : rdI a (i : Int) = rd a i := by
  simp [rdI]

theorem wrI_natCast_succ (a : List Int) (i : Nat) (x : Int) :
    wrI a ((i : Int) + 1) x = wr a (i + 1) x := by
  have h : ((i : Int) + 1).toNat = i + 1 := by omega
  have h0 : ¬ ((i : Int) + 1 < 0) := by omega
  simp [wrI, h, h0]

theorem rd_append_cons (p : List Int) (x : Int) (t : List Int) :
    rd (p ++ x :: t) p.length = .ok x := by
  have h : (p ++ x :: t)[p.length]? = some x := by
    rw [List.getElem?_append_right (le_refl _)]
    simp
  simp [rd, h]

theorem wr_append_cons (p : List Int) (x y : Int) (t : List Int) :
    wr (p ++ x :: t) p.length y = .ok (p ++ y :: t) := by
  simp [wr]

/-- The inner loop followed by `elements[j + 1] = key` inserts `key` into the prefix. -/
theorem serial_sort_inner_spec (key : Int) :
    ∀ (prev : List Int) (hole : Int) (tail : List Int) (fuel : Nat), prev.length ≤ fuel →
      (serial_sort_inner key fuel ((prev.length : Int) - 1) (prev.reverse ++ hole :: tail) >>=
        fun r => wrI r.2 (r.1 + 1) key) =
        .ok ((insRev key prev).reverse ++ tail) := by
  intro prev
  induction prev with
  | nil =>
    intro hole tail fuel _
    cases fuel <;>
      simp [serial_sort_inner, serial_sort_cond, bind, Except.bind, pure, Except.pure, wrI, wr,
        insRev]
  | cons x xs ih =>
    intro hole tail fuel hf
    obtain ⟨f, rfl⟩ : ∃ f, fuel = f + 1 := ⟨fuel - 1, by simp at hf; omega⟩
    have hj : (((x :: xs).length : Nat) : Int) - 1 = (xs.length : Int) := by simp
    have he : (x :: xs).reverse ++ hole :: tail = xs.reverse ++ x :: hole :: tail := by simp
    have hl : xs.reverse.length = xs.length := by simp
    have hrd : rd (xs.reverse ++ x :: hole :: tail) xs.length = .ok x := by
      have := rd_append_cons xs.reverse x (hole :: tail)
      rwa [hl] at this
    have hc : serial_sort_cond key (xs.length : Int) (xs.reverse ++ x :: hole :: tail) =
        .ok (decide (x > key)) := by
      simp only [serial_sort_cond, rdI_natCast, hrd]
      simp [bind, Except.bind, pure, Except.pure]
    have hwr : ∀ y : Int, wr (xs.reverse ++ x :: hole :: tail) (xs.length + 1) y =
        .ok (xs.reverse ++ x :: y :: tail) := by
      intro y
      have := wr_append_cons (xs.reverse ++ [x]) hole y tail
      simpa [hl] using this
    rw [hj, he]
    by_cases hx : x > key
    · have step : serial_sort_inner key (f + 1) (xs.length : Int)
          (xs.reverse ++ x :: hole :: tail) =
          serial_sort_inner key f ((xs.length : Int) - 1) (xs.reverse ++ x :: x :: tail) := by
        rw [serial_sort_inner]
        simp only [hc, rdI_natCast, hrd, wrI_natCast_succ, hwr]
        simp [bind, Except.bind, hx]
      rw [step, ih x (x :: tail) f (by simp at hf; omega)]
      simp [insRev, hx]
    · have step : serial_sort_inner key (f + 1) (xs.length : Int)
          (xs.reverse ++ x :: hole :: tail) =
          .ok ((xs.length : Int), xs.reverse ++ x :: hole :: tail) := by
        rw [serial_sort_inner]
        simp only [hc]
        simp [bind, Except.bind, hx, pure, Except.pure]
      rw [step]
      simp only [bind, Except.bind, wrI_natCast_succ, hwr]
      simp [insRev, hx]

theorem serial_sort_outer_step (n f i : Nat) (e : List Int) (hi : i < n)
    (hlt : i < e.length) :
    serial_sort_outer n (f + 1) i e =
      serial_sort_outer n f (i + 1) (insR (e.take i) e[i] ++ e.drop (i + 1)) := by
  have hsplit : e = (e.take i).reverse.reverse ++ e[i] :: e.drop (i + 1) := by
    rw [List.reverse_reverse, ← List.drop_eq_getElem_cons hlt, List.take_append_drop]
  have hlen : (e.take i).reverse.length = i := by
    simp; omega
  have hin := serial_sort_inner_spec e[i] (e.take i).reverse e[i] (e.drop (i + 1)) i
    (by omega)
  rw [hlen, ← hsplit] at hin
  rw [serial_sort_outer]
  simp only [hi, if_true, rd_of_lt e i hlt]
  simp only [bind, Except.bind] at hin ⊢
  cases hr : serial_sort_inner e[i] i ((i : Int) - 1) e with
  | error err => simp [hr] at hin
  | ok r =>
    obtain ⟨j, e1⟩ := r
    simp only [hr] at hin
    simp only [hin, insR]

theorem serial_sort_outer_spec (n : Nat) :
    ∀ (fuel i : Nat) (e : List Int), i ≤ n → n ≤ e.length → n - i ≤ fuel →
      serial_sort_outer n fuel i e =
        .ok (List.foldl insR (e.take i) ((e.take n).drop i) ++ e.drop n) := by
  intro fuel
  induction fuel with
  | zero =>
    intro i e hi hn hf
    have : i = n := by omega
    subst this
    simp [serial_sort_outer, drop_take_all]
  | succ f ih =>
    intro i e hi hn hf
    by_cases h : i < n
    · have hlt : i < e.length := by omega
      rw [serial_sort_outer_step n f i e h hlt]
      have hl : (insR (e.take i) e[i]).length = i + 1 := by
        have : ∀ (k : Int) (l : List Int), (insRev k l).length = l.length + 1 := by
          intro k l
          induction l with
          | nil => simp [insRev]
          | cons x xs ih => by_cases hx : x > k <;> simp [insRev, hx, ih]
        simp [insR, this]
        omega
      rw [ih _ _ (by omega) (by simp [hl]; omega) (by omega)]
      have t1 : (insR (e.take i) e[i] ++ e.drop (i + 1)).take (i + 1) =
          insR (e.take i) e[i] := by
        rw [List.take_append_of_le_length (by omega), List.take_of_length_le (by omega)]
      have t2 : ∀ m, i + 1 ≤ m →
          (insR (e.take i) e[i] ++ e.drop (i + 1)).drop m = e.drop m := by
        intro m hm
        rw [List.drop_append_eq_append_drop, List.drop_of_length_le (by omega), hl,
          List.drop_drop]
        simp only [List.nil_append]
        congr 1
        omega
      have t3 : ((insR (e.take i) e[i] ++ e.drop (i + 1)).take n).drop (i + 1) =
          (e.take n).drop (i + 1) := by
        rw [List.drop_take, List.drop_take, t2 _ (le_refl _)]
      rw [t1, t2 n (by omega), t3, drop_take_cons e n i h hlt, List.foldl_cons]
    · have : i = n := by omega
      subst this
      simp [serial_sort_outer, drop_take_all]

theorem insRev_perm (key : Int) (l : List Int) : (insRev key l).Perm (key :: l) := by
  induction l with
  | nil => simp [insRev]
  | cons x xs ih =>
    by_cases hx : x > key
    · simp only [insRev, hx, if_true]
      exact (ih.cons x).trans (List.Perm.swap key x xs)
    · simp [insRev, hx]

theorem insRev_sorted (key : Int) (l : List Int) (h : l.Sorted (· ≥ ·)) :
    (insRev key l).Sorted (· ≥ ·) := by
  induction l with
  | nil => simp [insRev]
  | cons x xs ih =>
    by_cases hx : x > key
    · simp only [insRev, hx, if_true]
      refine List.Pairwise.cons ?_ (ih (List.Sorted.of_cons h))
      intro z hz
      rcases List.mem_cons.mp ((insRev_perm key xs).mem_iff.mp hz) with rfl | hz
      · exact le_of_lt hx
      · exact List.rel_of_sorted_cons h z hz
    · simp only [insRev, hx, if_false]
      refine List.Pairwise.cons ?_ h
      intro z hz
      have hkx : x ≤ key := not_lt.mp hx
      rcases List.mem_cons.mp hz with rfl | hz
      · exact hkx
      · exact le_trans (List.rel_of_sorted_cons h z hz) hkx

theorem insR_perm (pre : List Int) (key : Int) : (insR pre key).Perm (pre ++ [key]) := by
  unfold insR
  refine (List.reverse_perm _).trans ((insRev_perm key _).trans ?_)
  exact ((List.reverse_perm pre).cons key).trans (List.perm_append_singleton key pre).symm

theorem insR_sorted (pre : List Int) (key : Int) (h : pre.Sorted (· ≤ ·)) :
    (insR pre key).Sorted (· ≤ ·) := by
  unfold insR List.Sorted
  rw [List.pairwise_reverse]
  apply insRev_sorted
  unfold List.Sorted
  rw [List.pairwise_reverse]
  exact h

theorem foldl_insR_perm (keys : List Int) :
    ∀ pre : List Int, (List.foldl insR pre keys).Perm (pre ++ keys) := by
  induction keys with
  | nil => intro pre; simp
  | cons k ks ih =>
    intro pre
    rw [List.foldl_cons]
    refine (ih _).trans ?_
    have := (insR_perm pre k).append_right ks
    simpa using this

theorem foldl_insR_sorted (keys : List Int) :
    ∀ pre : List Int, pre.Sorted (· ≤ ·) → (List.foldl insR pre keys).Sorted (· ≤ ·) := by
  induction keys with
  | nil => intro pre h; simpa using h
  | cons k ks ih =>
    intro pre h
    rw [List.foldl_cons]
    exact ih _ (insR_sorted pre k h)

/-- Closed form of `serial_sort` on the first `n` cells of an array. -/
theorem serial_sort_spec (e : List Int) (n : Nat) (hn : n ≤ e.length) :
    serial_sort e n = .ok (List.foldl insR [] (e.take n) ++ e.drop n) := by
  unfold serial_sort
  rcases Nat.eq_zero_or_pos n with h0 | hpos
  · subst h0
    simp [serial_sort_outer]
  · rw [serial_sort_outer_spec n n 1 e hpos hn (by omega)]
    have h1 : e.take n = e.take 1 ++ (e.take n).drop 1 := by
      have := (List.take_append_drop 1 (e.take n)).symm
      rwa [List.take_take, Nat.min_eq_left hpos] at this
    have h2 : ∀ x : Int, List.foldl insR [] [x] = [x] := by
      intro x; simp [insR, insRev]
    have h3 : List.foldl insR [] (e.take 1) = e.take 1 := by
      cases e with
      | nil => simp
      | cons x xs => simpa using h2 x
    conv_rhs => rw [h1, List.foldl_append, h3]

/-- On a whole array `serial_sort` returns the fold of right-to-left insertions. -/
theorem serial_sort_whole (e : List Int) :
    serial_sort e e.length = .ok (List.foldl insR [] e) := by
  have := serial_sort_spec e e.length (le_refl _)
  simpa using this

/-- C3: for every array, `serial_sort(elements, n)` with `n` the array length returns
normally and leaves a non-decreasing permutation of the input in the array. -/
theorem serial_sort_sorted_perm (elements : List Int) :
    ∃ out : List Int,
      serial_sort elements elements.length = .ok out ∧
      out.Sorted (· ≤ ·) ∧ out.Perm elements := by
  refine ⟨List.foldl insR [] elements, serial_sort_whole elements, ?_, ?_⟩
  · exact foldl_insR_sorted elements [] (by simp)
  · simpa using foldl_insR_perm elements []

theorem bsearch_loop_spec (e : List Int) (pivot : Int) (hs : e.Sorted (· ≤ ·)) :
    ∀ (fuel left right : Nat), left ≤ right → right ≤ e.length → right - left ≤ fuel →
      (∀ idx (h : idx < e.length), idx < left → e[idx] < pivot) →
      (∀ idx (h : idx < e.length), right ≤ idx → pivot ≤ e[idx]) →
      ∃ l, bsearch_loop e pivot fuel left right = .ok l ∧ left ≤ l ∧ l ≤ right ∧
        (∀ idx (h : idx < e.length), idx < l → e[idx] < pivot) ∧
        (∀ idx (h : idx < e.length), l ≤ idx → pivot ≤ e[idx]) := by
  have hmono : ∀ (a b : Nat) (ha : a < e.length) (hb : b < e.length), a ≤ b → e[a] ≤ e[b] := by
    intro a b ha hb hab
    rcases Nat.eq_or_lt_of_le hab with rfl | hlt
    · exact le_refl _
    · exact (List.pairwise_iff_getElem.mp hs) a b ha hb hlt
  intro fuel
  induction fuel with
  | zero =>
    intro left right hlr hre hf hlo hhi
    have : left = right := by omega
    subst this
    exact ⟨left, by simp [bsearch_loop], le_refl _, le_refl _, hlo, hhi⟩
  | succ f ih =>
    intro left right hlr hre hf hlo hhi
    by_cases h : left < right
    · have hmid : left + (right - left) / 2 < e.length := by omega
      by_cases hx : e[left + (right - left) / 2] < pivot
      · obtain ⟨l, hl, h1, h2, h3, h4⟩ := ih (left + (right - left) / 2 + 1) right (by omega) hre
          (by omega)
          (fun idx hidx hlt => lt_of_le_of_lt (hmono idx _ hidx hmid (by omega)) hx) hhi
        refine ⟨l, ?_, by omega, h2, h3, h4⟩
        rw [bsearch_loop]
        simp [h, rd_of_lt e _ hmid, bind, Except.bind, hx, hl]
      · obtain ⟨l, hl, h1, h2, h3, h4⟩ := ih left (left + (right - left) / 2) (by omega)
          (by omega) (by omega) hlo
          (fun idx hidx hle => le_trans (not_lt.mp hx) (hmono _ idx hmid hidx hle))
        refine ⟨l, ?_, h1, by omega, h3, h4⟩
        rw [bsearch_loop]
        simp [h, rd_of_lt e _ hmid, bind, Except.bind, hx, hl]
    · have : left = right := by omega
      subst this
      exact ⟨left, by simp [bsearch_loop], le_refl _, le_refl _, hlo, hhi⟩

theorem countP_of_split (e : List Int) (pivot : Int) (l : Nat) (hl : l ≤ e.length)
    (hlo : ∀ idx (h : idx < e.length), idx < l → e[idx] < pivot)
    (hhi : ∀ idx (h : idx < e.length), l ≤ idx → pivot ≤ e[idx]) :
    e.take l = e.filter (fun x => decide (x < pivot)) ∧
    e.drop l = e.filter (fun x => decide (pivot ≤ x)) := by
  have h1 : ∀ x ∈ e.take l, x < pivot := by
    intro x hx
    obtain ⟨i, hi, rfl⟩ := List.getElem_of_mem hx
    rw [List.getElem_take]
    have hi2 : i < l := by
      have := hi
      simp at this
      omega
    exact hlo i (by omega) hi2
  have h2 : ∀ x ∈ e.drop l, pivot ≤ x := by
    intro x hx
    obtain ⟨i, hi, rfl⟩ := List.getElem_of_mem hx
    rw [List.getElem_drop]
    have hi2 : l + i < e.length := by
      have := hi
      simp at this
      omega
    exact hhi (l + i) hi2 (by omega)
  have hsplit : e = e.take l ++ e.drop l := (List.take_append_drop l e).symm
  constructor
  · conv_rhs => rw [hsplit, List.filter_append]
    rw [List.filter_eq_self.mpr (fun x hx => by simpa using h1 x hx),
      List.filter_eq_nil_iff.mpr (fun x hx => by simpa using h2 x hx)]
    simp
  · conv_rhs => rw [hsplit, List.filter_append]
    rw [List.filter_eq_nil_iff.mpr (fun x hx => by simpa using h1 x hx),
      List.filter_eq_self.mpr (fun x hx => by simpa using h2 x hx)]
    simp

/-- C4: on an ascending slice, with `n` the slice length, the binary-search partition of
`global_sort` ends with a split index `left ≤ n`; the cells before `left` are below the
pivot, the cells from `left` on are at least the pivot, `left_arr_size` is the number of
elements below the pivot and `left_arr_size + right_arr_size = n`. -/
theorem partition_sizes_exact (elements : List Int) (pivot : Int)
    (hs : elements.Sorted (· ≤ ·)) :
    ∃ left : Nat,
      bsearch_loop elements pivot elements.length 0 elements.length = .ok left ∧
      partition_sizes elements elements.length pivot = .ok (left, elements.length - left) ∧
      left ≤ elements.length ∧
      (∀ idx (h : idx < elements.length), idx < left → elements[idx] < pivot) ∧
      (∀ idx (h : idx < elements.length), left ≤ idx → pivot ≤ elements[idx]) ∧
      left = elements.countP (fun x => decide (x < pivot)) ∧
      left + (elements.length - left) = elements.length := by
  obtain ⟨l, hl, _, h2, h3, h4⟩ := bsearch_loop_spec elements pivot hs elements.length 0
    elements.length (Nat.zero_le _) (le_refl _) (by omega)
    (fun idx _ h => absurd h (Nat.not_lt_zero _))
    (fun idx h hle => absurd h (by omega))
  refine ⟨l, hl, ?_, h2, h3, h4, ?_, by omega⟩
  · simp [partition_sizes, hl, bind, Except.bind, pure, Except.pure]
  · have hc := (countP_of_split elements pivot l h2 h3 h4).1
    rw [List.countP_eq_length_filter, ← hc]
    simp [h2]

/-- Witness of C4 on the slice `[1,3,5,8]` with pivot `5`. -/
theorem partition_sizes_exact_witness :
    ∃ left : Nat,
      bsearch_loop [1, 3, 5, 8] 5 4 0 4 = .ok left ∧
      partition_sizes [1, 3, 5, 8] 4 5 = .ok (left, 4 - left) ∧
      left ≤ 4 ∧
      (∀ idx (h : idx < 4), idx < left → ([1, 3, 5, 8] : List Int)[idx] < 5) ∧
      (∀ idx (h : idx < 4), left ≤ idx → 5 ≤ ([1, 3, 5, 8] : List Int)[idx]) ∧
      left = ([1, 3, 5, 8] : List Int).countP (fun x => decide (x < 5)) ∧
      left + (4 - left) = 4 :=
  partition_sizes_exact [1, 3, 5, 8] 5 (by decide)

theorem noAbort_bind {α β : Type} (r : Except Err α) (f : α → Except Err β)
    (h1 : r ≠ .error .abort) (h2 : ∀ a, f a ≠ .error .abort) :
    (r >>= f) ≠ .error .abort := by
  cases r with
  | error e => simpa [bind, Except.bind] using h1
  | ok a => simpa [bind, Except.bind] using h2 a

theorem rd_noAbort {α : Type} (a : List α) (i : Nat) : rd a i ≠ .error .abort := by
  unfold rd
  split <;> simp

theorem wr_noAbort {α : Type} (a : List α) (i : Nat) (x : α) : wr a i x ≠ .error .abort := by
  unfold wr
  split <;> simp

theorem rdI_noAbort (a : List Int) (i : Int) : rdI a i ≠ .error .abort := by
  unfold rdI
  split
  · simp
  · exact rd_noAbort _ _

theorem merge_loop1_noAbort (v1 : List Int) (n1 : Nat) (v2 : List Int) (n2 : Nat) :
    ∀ (fuel : Nat) (s : MergeState), merge_loop1 v1 n1 v2 n2 fuel s ≠ .error .abort := by
  intro fuel
  induction fuel with
  | zero => intro s; unfold merge_loop1; split <;> simp
  | succ f ih =>
    intro s
    unfold merge_loop1
    split
    · refine noAbort_bind _ _ (rd_noAbort _ _) (fun a => ?_)
      refine noAbort_bind _ _ (rd_noAbort _ _) (fun b => ?_)
      split
      · exact noAbort_bind _ _ (wr_noAbort _ _ _) (fun r => ih _)
      · exact noAbort_bind _ _ (wr_noAbort _ _ _) (fun r => ih _)
    · simp

theorem merge_loop2_noAbort (v1 : List Int) (n1 : Nat) :
    ∀ (fuel : Nat) (s : MergeState), merge_loop2 v1 n1 fuel s ≠ .error .abort := by
  intro fuel
  induction fuel with
  | zero => intro s; unfold merge_loop2; split <;> simp
  | succ f ih =>
    intro s
    unfold merge_loop2
    split
    · refine noAbort_bind _ _ (rd_noAbort _ _) (fun a => ?_)
      exact noAbort_bind _ _ (wr_noAbort _ _ _) (fun r => ih _)
    · simp

theorem merge_loop3_noAbort (v2 : List Int) (n2 : Nat) :
    ∀ (fuel : Nat) (s : MergeState), merge_loop3 v2 n2 fuel s ≠ .error .abort := by
  intro fuel
  induction fuel with
  | zero => intro s; unfold merge_loop3; split <;> simp
  | succ f ih =>
    intro s
    unfold merge_loop3
    split
    · refine noAbort_bind _ _ (rd_noAbort _ _) (fun a => ?_)
      exact noAbort_bind _ _ (wr_noAbort _ _ _) (fun r => ih _)
    · simp

theorem merge_ascending_noAbort (v1 : List Int) (n1 : Nat) (v2 : List Int) (n2 : Nat)
    (result : List Int) : merge_ascending v1 n1 v2 n2 result ≠ .error .abort := by
  unfold merge_ascending merge_run
  refine noAbort_bind _ _ ?_ (fun s => by simp [pure, Except.pure])
  refine noAbort_bind _ _ (merge_loop1_noAbort _ _ _ _ _ _) (fun s1 => ?_)
  exact noAbort_bind _ _ (merge_loop2_noAbort _ _ _ _) (fun s2 => merge_loop3_noAbort _ _ _ _)

theorem bsearch_loop_noAbort (e : List Int) (pivot : Int) :
    ∀ (fuel left right : Nat), bsearch_loop e pivot fuel left right ≠ .error .abort := by
  intro fuel
  induction fuel with
  | zero => intro l r; unfold bsearch_loop; split <;> simp
  | succ f ih =>
    intro l r
    unfold bsearch_loop
    split
    · refine noAbort_bind _ _ (rd_noAbort _ _) (fun a => ?_)
      split
      · exact ih _ _
      · exact ih _ _
    · simp

theorem read_range_noAbort (a : List Int) (off cnt : Nat) :
    read_range a off cnt ≠ .error .abort := by
  unfold read_range
  split <;> simp

theorem local_partition_noAbort (pivot : Int) (size rank : Nat) (p : Proc) :
    local_partition pivot size rank p ≠ .error .abort := by
  unfold local_partition partition_sizes
  refine noAbort_bind _ _ ?_ (fun lr => ?_)
  · exact noAbort_bind _ _ (bsearch_loop_noAbort _ _ _ _ _) (fun l => by simp [pure, Except.pure])
  · exact noAbort_bind _ _ (read_range_noAbort _ _ _) (fun s => by simp [pure, Except.pure])

theorem exchange_merge_noAbort (locals : List Local) (me : Local) :
    exchange_merge locals me ≠ .error .abort := by
  unfold exchange_merge
  split
  · simp
  · split
    · exact noAbort_bind _ _ (merge_ascending_noAbort _ _ _ _ _) (fun s => by simp [pure, Except.pure])
    · exact noAbort_bind _ _ (merge_ascending_noAbort _ _ _ _ _) (fun s => by simp [pure, Except.pure])

theorem mapE_noAbort {α β : Type} (f : α → Except Err β) (hf : ∀ a, f a ≠ .error .abort) :
    ∀ l : List α, mapE f l ≠ .error .abort := by
  intro l
  induction l with
  | nil => simp [mapE]
  | cons a as ih =>
    unfold mapE
    refine noAbort_bind _ _ (hf a) (fun b => ?_)
    exact noAbort_bind _ _ ih (fun bs => by simp [pure, Except.pure])

theorem mapRanks_noAbort {α β : Type} (f : Nat → α → Except Err β)
    (hf : ∀ r a, f r a ≠ .error .abort) :
    ∀ (l : List α) (rank : Nat), mapRanks f rank l ≠ .error .abort := by
  intro l
  induction l with
  | nil => intro rank; simp [mapRanks]
  | cons a as ih =>
    intro rank
    unfold mapRanks
    refine noAbort_bind _ _ (hf rank a) (fun b => ?_)
    exact noAbort_bind _ _ (ih _) (fun bs => by simp [pure, Except.pure])

theorem global_sort_level_noAbort (sp : PivotSelector) (ps : Int) (group : List Proc) :
    global_sort_level sp ps group ≠ .error .abort := by
  unfold global_sort_level
  split
  · simp
  · refine noAbort_bind _ _ (rdI_noAbort _ _) (fun pivot => ?_)
    refine noAbort_bind _ _ (mapRanks_noAbort _ (local_partition_noAbort _ _) _ _) (fun ls => ?_)
    exact mapE_noAbort _ (exchange_merge_noAbort _) _

/-- C8: a group whose size is odd and greater than 1 ends in the configuration error
whatever the slices and the pivot strategy are (nothing else has been evaluated); a group of
size 1 returns at once; for an even size the guard is passed, the call continues with steps
3.1 to 3.4, and those steps never end in the configuration error. -/
theorem global_sort_parity_guard (select_pivot : PivotSelector) (pivot_strategy : Int)
    (fuel : Nat) (group : List Proc) :
    (1 < group.length ∧ group.length % 2 = 1 →
      global_sort select_pivot pivot_strategy (fuel + 1) group = .error .abort) ∧
    (group.length = 1 →
      odd_group group.length = false ∧
      global_sort select_pivot pivot_strategy (fuel + 1) group = .ok group) ∧
    (0 < group.length ∧ group.length % 2 = 0 →
      odd_group group.length = false ∧
      global_sort_level select_pivot pivot_strategy group ≠ .error .abort ∧
      global_sort select_pivot pivot_strategy (fuel + 1) group =
        (global_sort_level select_pivot pivot_strategy group >>= fun next =>
          global_sort select_pivot pivot_strategy fuel (next.take (group.length / 2)) >>=
          fun lo =>
          global_sort select_pivot pivot_strategy fuel (next.drop (group.length / 2)) >>=
          fun hi => pure (lo ++ hi))) := by
  refine ⟨?_, ?_, ?_⟩
  · rintro ⟨h1, h2⟩
    have : odd_group group.length = true := by simp [odd_group]; omega
    simp [global_sort, this]
  · intro h1
    have : odd_group group.length = false := by simp [odd_group, h1]
    have o1 : odd_group 1 = false := by decide
    refine ⟨this, ?_⟩
    unfold global_sort
    simp [o1, h1]
  · rintro ⟨h0, h2⟩
    have : odd_group group.length = false := by simp [odd_group]; omega
    refine ⟨this, global_sort_level_noAbort _ _ _, ?_⟩
    have h1 : group.length ≠ 1 := by omega
    have h3 : group.length ≠ 0 := by omega
    simp [global_sort, this, h1, h3]

/-- Witness of C8 on a group of three members. -/
theorem global_sort_parity_guard_witness :
    global_sort (fun _ _ _ _ => 0) 1 1 [⟨[1, 2], 2⟩, ⟨[3], 1⟩, ⟨[], 0⟩] = .error .abort :=
  (global_sort_parity_guard (fun _ _ _ _ => 0) 1 0 [⟨[1, 2], 2⟩, ⟨[3], 1⟩, ⟨[], 0⟩]).1
    ⟨by decide, by decide⟩

theorem rdI_error (a : List Int) (i : Int) (e : Err) (h : rdI a i = .error e) : e = .oob := by
  unfold rdI rd at h
  split at h
  · cases h; rfl
  · split at h
    · cases h
    · cases h; rfl

/-- C5 (failing input): on the example of the specification, two processes holding the
shards `[5,3,8,1]` and `[9,2,7,4]`, the run of `main` reads outside a shard whatever the
pivot strategy: `global_sort` is entered with the total count 8 as `n` and the binary
search starts at index 4 of a four-cell array. -/
theorem main_example_out_of_bounds (select_pivot : PivotSelector) :
    main (fun _ _ _ => [[5, 3, 8, 1], [9, 2, 7, 4]]) select_pivot [5, 3, 8, 1, 9, 2, 7, 4] 2 =
      .error .oob := by
  have hs : mapE (fun elements => serial_sort elements elements.length)
      [[5, 3, 8, 1], [9, 2, 7, 4]] = .ok [[1, 3, 5, 8], [2, 4, 7, 9]] := by decide
  have hp : ∀ pivot : Int, local_partition pivot 2 0 ⟨[1, 3, 5, 8], 8⟩ = .error .oob := by
    intro pivot
    simp [local_partition, partition_sizes, bsearch_loop, rd, bind, Except.bind]
  simp only [main, hs, bind, Except.bind, List.map, List.length]
  simp only [global_sort, odd_group, global_sort_level]
  cases h : rdI [1, 3, 5, 8] (select_pivot 1 [1, 3, 5, 8] 8 2) with
  | error e =>
    have := rdI_error _ _ _ h
    subst this
    simp [h, bind, Except.bind]
  | ok pivot =>
    simp [h, bind, Except.bind, mapRanks, hp]

/-- C6 (failing input): the two sorted shards of the example, each entered with its own
length as `n` and the middle cell of rank 0 as pivot.  Rank 0 keeps 2 cells and receives 2,
but continues with `new_n = 2`: the lengths after the level add up to 6 of the 8 elements,
and the merge writes behind the two cells allocated for it. -/
theorem global_sort_example_drops_received :
    global_sort (fun _ _ n _ => ((n / 2 : Nat) : Int)) 1 2
      [⟨[1, 3, 5, 8], 4⟩, ⟨[2, 4, 7, 9], 4⟩] = .error .oob ∧
    new_n 0 2 2 2 + new_n 1 2 2 2 = 6 := by
  decide

/-- C7 (failing input): one level on the group `[1,3,5,8]`, `[2,4,7,9]` with pivot 5.  The
low-half member has `left_arr_size = 2` and receives `recv_count = 2` cells, yet
`new_n = 2`; its merge of 4 cells into the 2 allocated cells fails.  For the high-half
member `new_n = right_arr_size + recv_count = 4`. -/
theorem global_sort_level_low_half_new_n :
    mapRanks (local_partition 5 2) 0 [⟨[1, 3, 5, 8], 4⟩, ⟨[2, 4, 7, 9], 4⟩] =
      .ok [⟨[1, 3, 5, 8], 2, 2, 0, 1, 2, [5, 8]⟩, ⟨[2, 4, 7, 9], 2, 2, 1, 0, 2, [2, 4]⟩] ∧
    new_n 0 2 2 2 = 2 ∧
    new_n 1 2 2 2 = 4 ∧
    exchange_merge
      [⟨[1, 3, 5, 8], 2, 2, 0, 1, 2, [5, 8]⟩, ⟨[2, 4, 7, 9], 2, 2, 1, 0, 2, [2, 4]⟩]
      ⟨[1, 3, 5, 8], 2, 2, 0, 1, 2, [5, 8]⟩ = .error .oob ∧
    exchange_merge
      [⟨[1, 3, 5, 8], 2, 2, 0, 1, 2, [5, 8]⟩, ⟨[2, 4, 7, 9], 2, 2, 1, 0, 2, [2, 4]⟩]
      ⟨[2, 4, 7, 9], 2, 2, 1, 0, 2, [2, 4]⟩ = .ok ⟨[5, 7, 8, 9], 4⟩ ∧
    global_sort_level (fun _ _ n _ => ((n / 2 : Nat) : Int)) 1
      [⟨[1, 3, 5, 8], 4⟩, ⟨[2, 4, 7, 9], 4⟩] = .error .oob := by
  decide

/-- C9: a group of one member returns at once with the value `n` it was given and its
array untouched, whatever the array, `n` and the pivot strategy are; hence on one process,
whose shard is the whole input, `main` leaves the sorted permutation of the input. -/
theorem global_sort_single_member (distribute_from_root : Distributor)
    (select_pivot : PivotSelector) (pivot_strategy : Int) (fuel : Nat) (p : Proc)
    (input : List Int) (hd : distribute_from_root input input.length 1 = [input]) :
    global_sort select_pivot pivot_strategy (fuel + 1) [p] = .ok [p] ∧
    ∃ out : List Int,
      main distribute_from_root select_pivot input 1 = .ok [⟨out, input.length⟩] ∧
      final_slice ⟨out, input.length⟩ = out ∧
      out.Sorted (· ≤ ·) ∧ out.Perm input := by
  have hbase : ∀ q : Proc, global_sort select_pivot pivot_strategy (fuel + 1) [q] = .ok [q] := by
    intro q
    have o1 : odd_group 1 = false := by decide
    simp [global_sort, o1]
  refine ⟨hbase p, ?_⟩
  have hout := serial_sort_whole input
  have hsorted : (List.foldl insR [] input).Sorted (· ≤ ·) :=
    foldl_insR_sorted input [] (by simp)
  have hperm : (List.foldl insR [] input).Perm input := by
    simpa using foldl_insR_perm input []
  generalize List.foldl insR [] input = out at hout hsorted hperm
  refine ⟨out, ?_, ?_, hsorted, hperm⟩
  · have o1 : odd_group 1 = false := by decide
    simp [main, hd, mapE, hout, bind, Except.bind, pure, Except.pure, global_sort, o1]
  · simp [final_slice, ← hperm.length_eq]

/-- Witness of C9: one process, input `[3,1,2]`, output `[1,2,3]`. -/
theorem global_sort_single_member_witness :
    (global_sort (fun _ _ _ _ => 0) 1 1 [⟨[3, 1, 2], 3⟩] = .ok [⟨[3, 1, 2], 3⟩] ∧
      ∃ out : List Int,
        main (fun g _ _ => [g]) (fun _ _ _ _ => 0) [3, 1, 2] 1 = .ok [⟨out, 3⟩] ∧
        final_slice ⟨out, 3⟩ = out ∧
        out.Sorted (· ≤ ·) ∧ out.Perm [3, 1, 2]) ∧
    main (fun g _ _ => [g]) (fun _ _ _ _ => 0) [3, 1, 2] 1 = .ok [⟨[1, 2, 3], 3⟩] :=
  ⟨global_sort_single_member (fun g _ _ => [g]) (fun _ _ _ _ => 0) 1 0 ⟨[3, 1, 2], 3⟩
    [3, 1, 2] rfl, by decide⟩

theorem countP_lt_range (n k : Nat) (h : k ≤ n) :
    (List.range n).countP (fun r => decide (r < k)) = k := by
  induction n with
  | zero =>
    have : k = 0 := by omega
    simp [this]
  | succ m ih =>
    rw [List.range_succ, List.countP_append]
    by_cases hk : k ≤ m
    · rw [ih hk]
      simp
      omega
    · have : k = m + 1 := by omega
      subst this
      have hall : (List.range m).countP (fun r => decide (r < m + 1)) = m := by
        rw [List.countP_eq_length_filter, List.filter_eq_self.mpr]
        · simp
        · intro a ha
          have := List.mem_range.mp ha
          simp
          omega
      rw [hall]
      simp

/-- C10: for an even group size and a rank of the group, the partner is `rank + size/2`
in the low half and `rank - size/2` in the high half, it is a rank of the group, it has the
other color, and its own partner is `rank`; the two colors have `size/2` members each. -/
theorem partner_rank_pairing (size rank : Nat) (hs : size % 2 = 0) (hr : rank < size) :
    partner_rank rank size = (if rank < size / 2 then rank + size / 2 else rank - size / 2) ∧
    partner_rank rank size < size ∧
    color (partner_rank rank size) size ≠ color rank size ∧
    color (partner_rank rank size) size + color rank size = 1 ∧
    partner_rank (partner_rank rank size) size = rank ∧
    (List.range size).countP (fun r => decide (color r size = 0)) = size / 2 ∧
    (List.range size).countP (fun r => decide (color r size = 1)) = size / 2 := by
  have hc0 : (List.range size).countP (fun r => decide (color r size = 0)) = size / 2 := by
    have := countP_lt_range size (size / 2) (by omega)
    rw [← this]
    apply List.countP_congr
    intro r _
    by_cases h : r < size / 2 <;> simp [color, h]
  have hc1 : (List.range size).countP (fun r => decide (color r size = 1)) = size / 2 := by
    have hsum := List.length_eq_countP_add_countP (fun r => decide (color r size = 0))
      (List.range size)
    have heq : (List.range size).countP (fun r => decide (color r size = 1)) =
        (List.range size).countP (fun r => ¬ (decide (color r size = 0)) = true) := by
      apply List.countP_congr
      intro r _
      by_cases h : r < size / 2 <;> simp [color, h]
    rw [heq]
    simp only [List.length_range, hc0] at hsum
    omega
  refine ⟨?_, ?_, ?_, ?_, ?_, hc0, hc1⟩
  · by_cases h : rank < size / 2 <;> simp [partner_rank, color, h]
  · by_cases h : rank < size / 2 <;> simp [partner_rank, color, h] <;> omega
  · by_cases h : rank < size / 2
    · have h2 : ¬ (rank + size / 2 < size / 2) := by omega
      simp [partner_rank, color, h, h2]
    · have h2 : rank - size / 2 < size / 2 := by omega
      simp [partner_rank, color, h, h2]
  · by_cases h : rank < size / 2
    · have h2 : ¬ (rank + size / 2 < size / 2) := by omega
      simp [partner_rank, color, h, h2]
    · have h2 : rank - size / 2 < size / 2 := by omega
      simp [partner_rank, color, h, h2]
  · by_cases h : rank < size / 2
    · have h2 : ¬ (rank + size / 2 < size / 2) := by omega
      simp [partner_rank, color, h, h2]
    · have h2 : rank - size / 2 < size / 2 := by omega
      simp [partner_rank, color, h, h2]
      omega

/-- Witness of C10 on rank 1 of a group of 4. -/
theorem partner_rank_pairing_witness :
    partner_rank 1 4 = (if 1 < 4 / 2 then 1 + 4 / 2 else 1 - 4 / 2) ∧
    partner_rank 1 4 < 4 ∧
    color (partner_rank 1 4) 4 ≠ color 1 4 ∧
    color (partner_rank 1 4) 4 + color 1 4 = 1 ∧
    partner_rank (partner_rank 1 4) 4 = 1 ∧
    (List.range 4).countP (fun r => decide (color r 4 = 0)) = 4 / 2 ∧
    (List.range 4).countP (fun r => decide (color r 4 = 1)) = 4 / 2 :=
  partner_rank_pairing 4 1 (by decide) (by decide)

theorem sorted_ascending_loop_spec (e : List Int) (n : Nat) (hn : n ≤ e.length) :
    ∀ (fuel i : Nat), 1 ≤ i → n - i ≤ fuel →
      (sorted_ascending_loop e n fuel i = .ok 1 ∧
        ∀ k (h : k < e.length), i ≤ k → k < n → e[k - 1] ≤ e[k]) ∨
      (sorted_ascending_loop e n fuel i = .ok 0 ∧
        ∃ k, ∃ (h : k < e.length), i ≤ k ∧ k < n ∧ e[k] < e[k - 1]) := by
  intro fuel
  induction fuel with
  | zero =>
    intro i _ hf
    left
    refine ⟨by simp [sorted_ascending_loop]; omega, ?_⟩
    intro k _ hik hkn
    omega
  | succ f ih =>
    intro i hi hf
    by_cases h : i < n
    · have hlt : i < e.length := by omega
      have hlt1 : i - 1 < e.length := by omega
      by_cases hx : e[i] < e[i - 1]
      · right
        refine ⟨?_, i, hlt, le_refl _, h, hx⟩
        rw [sorted_ascending_loop]
        simp [h, rd_of_lt e i hlt, rd_of_lt e (i - 1) hlt1, bind, Except.bind, hx]
      · have step : sorted_ascending_loop e n (f + 1) i =
            sorted_ascending_loop e n f (i + 1) := by
          rw [sorted_ascending_loop]
          simp [h, rd_of_lt e i hlt, rd_of_lt e (i - 1) hlt1, bind, Except.bind, hx]
        rw [step]
        rcases ih (i + 1) (by omega) (by omega) with ⟨h1, h2⟩ | ⟨h1, k, hk, hik, hkn, hlt2⟩
        · left
          refine ⟨h1, ?_⟩
          intro k hk hik hkn
          rcases Nat.eq_or_lt_of_le hik with rfl | hlt2
          · exact not_lt.mp hx
          · exact h2 k hk hlt2 hkn
        · right
          exact ⟨h1, k, hk, by omega, hkn, hlt2⟩
    · left
      refine ⟨by simp [sorted_ascending_loop, h], ?_⟩
      intro k _ hik hkn
      omega

theorem sorted_take_iff_adjacent (e : List Int) (n : Nat) (hn : n ≤ e.length) :
    (e.take n).Sorted (· ≤ ·) ↔
      ∀ k (h : k < e.length), 1 ≤ k → k < n → e[k - 1] ≤ e[k] := by
  unfold List.Sorted
  rw [← List.chain'_iff_pairwise, List.chain'_iff_get]
  have hl : (e.take n).length = n := by simp [hn]
  constructor
  · intro h k hk h1 hkn
    have := h (k - 1) (by omega)
    simp only [List.get_eq_getElem, List.getElem_take] at this
    have e1 : k - 1 + 1 = k := by omega
    simpa [e1] using this
  · intro h i hi
    simp only [List.get_eq_getElem, List.getElem_take]
    have := h (i + 1) (by omega) (by omega) (by omega)
    simpa using this

/-- Outcome of `sorted_ascending` on the first `n` cells of an array. -/
theorem sorted_ascending_spec (e : List Int) (n : Nat) (hn : n ≤ e.length) :
    (sorted_ascending e n = .ok 1 ∧ (e.take n).Sorted (· ≤ ·)) ∨
    (sorted_ascending e n = .ok 0 ∧ ¬ (e.take n).Sorted (· ≤ ·)) := by
  rcases sorted_ascending_loop_spec e n hn n 1 (le_refl _) (by omega) with
    ⟨h1, h2⟩ | ⟨h1, k, hk, hik, hkn, hlt⟩
  · left
    exact ⟨h1, (sorted_take_iff_adjacent e n hn).mpr h2⟩
  · right
    refine ⟨h1, fun hs => ?_⟩
    have := (sorted_take_iff_adjacent e n hn).mp hs k hk hik hkn
    omega

/-- C14: on the first `n` cells of an array, `sorted_ascending` returns 1 or 0; it
returns 1 exactly when `elements[i-1] <= elements[i]` for every `1 <= i < n`, that is when
the first `n` cells are non-decreasing, and it returns 1 for `n = 0` and `n = 1`. -/
theorem sorted_ascending_iff (elements : List Int) (n : Nat) (hn : n ≤ elements.length) :
    (sorted_ascending elements n = .ok 1 ∨ sorted_ascending elements n = .ok 0) ∧
    (sorted_ascending elements n = .ok 1 ↔
      ∀ i (h : i < elements.length), 1 ≤ i → i < n → elements[i - 1] ≤ elements[i]) ∧
    (sorted_ascending elements n = .ok 1 ↔ (elements.take n).Sorted (· ≤ ·)) ∧
    (sorted_ascending elements n = .ok 0 ↔ ¬ (elements.take n).Sorted (· ≤ ·)) ∧
    (n ≤ 1 → sorted_ascending elements n = .ok 1) := by
  have hspec := sorted_ascending_spec elements n hn
  have h3 : sorted_ascending elements n = .ok 1 ↔ (elements.take n).Sorted (· ≤ ·) := by
    rcases hspec with ⟨h1, h2⟩ | ⟨h1, h2⟩
    · exact iff_of_true h1 h2
    · exact iff_of_false (by simp [h1]) h2
  have h4 : sorted_ascending elements n = .ok 0 ↔ ¬ (elements.take n).Sorted (· ≤ ·) := by
    rcases hspec with ⟨h1, h2⟩ | ⟨h1, h2⟩
    · exact iff_of_false (by simp [h1]) (not_not.mpr h2)
    · exact iff_of_true h1 h2
  refine ⟨?_, ?_, h3, h4, ?_⟩
  · rcases hspec with ⟨h1, _⟩ | ⟨h1, _⟩
    · exact Or.inl h1
    · exact Or.inr h1
  · rw [h3]
    exact sorted_take_iff_adjacent elements n hn
  · intro h1
    rw [h3, sorted_take_iff_adjacent elements n hn]
    intro i _ hi hin
    omega

/-- Witness of C14 on `[1,3,2]` with `n = 3`. -/
theorem sorted_ascending_iff_witness :
    (sorted_ascending [1, 3, 2] 3 = .ok 1 ∨ sorted_ascending [1, 3, 2] 3 = .ok 0) ∧
    (sorted_ascending [1, 3, 2] 3 = .ok 1 ↔
      ∀ i (h : i < ([1, 3, 2] : List Int).length), 1 ≤ i → i < 3 →
        ([1, 3, 2] : List Int)[i - 1] ≤ ([1, 3, 2] : List Int)[i]) ∧
    (sorted_ascending [1, 3, 2] 3 = .ok 1 ↔ (([1, 3, 2] : List Int).take 3).Sorted (· ≤ ·)) ∧
    (sorted_ascending [1, 3, 2] 3 = .ok 0 ↔ ¬ (([1, 3, 2] : List Int).take 3).Sorted (· ≤ ·)) ∧
    (3 ≤ 1 → sorted_ascending [1, 3, 2] 3 = .ok 1) :=
  sorted_ascending_iff [1, 3, 2] 3 (by decide)

/-- C13: for every array that is not non-decreasing, `check_and_print` returns -1 and makes
no call on the output file, whatever the file system would answer; for a non-decreasing
array every I/O failure (stream not opened, count not written, data not fully written)
returns -2, and the two statuses differ. -/
theorem check_and_print_unsorted (env : FileEnv) (elements : List Int) :
    (¬ elements.Sorted (· ≤ ·) →
      check_and_print env elements elements.length = .ok (some (-1), [])) ∧
    (elements.Sorted (· ≤ ·) →
      (env.fopen_ok = false ∨ env.count_written ≠ 1 ∨ env.data_written ≠ elements.length) →
      ∃ ops, check_and_print env elements elements.length = .ok (some (-2), ops) ∧
        ops ≠ []) ∧
    ((-1 : Int) ≠ -2) := by
  have hspec := sorted_ascending_spec elements elements.length (le_refl _)
  rw [List.take_length] at hspec
  refine ⟨?_, ?_, by decide⟩
  · intro hns
    rcases hspec with ⟨_, h2⟩ | ⟨h1, _⟩
    · exact absurd h2 hns
    · simp [check_and_print, h1, bind, Except.bind, pure, Except.pure]
  · intro hs hio
    rcases hspec with ⟨h1, _⟩ | ⟨_, h2⟩
    · by_cases ho : env.fopen_ok = false
      · exact ⟨[.fopen], by
          simp [check_and_print, h1, bind, Except.bind, pure, Except.pure, ho], by simp⟩
      · by_cases hc : env.count_written ≠ 1
        · exact ⟨[.fopen, .fwrite_count, .fclose], by
            simp [check_and_print, h1, bind, Except.bind, pure, Except.pure, ho, hc], by simp⟩
        · have hd : env.data_written ≠ elements.length := by
            rcases hio with h | h | h
            · exact absurd h ho
            · exact absurd h hc
            · exact h
          have hc1 : env.count_written = 1 := not_not.mp hc
          exact ⟨[.fopen, .fwrite_count, .fwrite_data, .fclose], by
            simp [check_and_print, h1, bind, Except.bind, pure, Except.pure, ho, hc1, hd],
            by simp⟩
    · exact absurd hs h2

/-- Witness of C13: the unsorted array `[1,3,2]` with a file system that would accept
everything, and the sorted array `[1,2,3]` with a stream that cannot be opened. -/
theorem check_and_print_unsorted_witness :
    check_and_print ⟨true, 1, 3⟩ [1, 3, 2] 3 = .ok (some (-1), []) ∧
    (∃ ops, check_and_print ⟨false, 0, 0⟩ [1, 2, 3] 3 = .ok (some (-2), ops) ∧ ops ≠ []) :=
  ⟨(check_and_print_unsorted ⟨true, 1, 3⟩ [1, 3, 2]).1 (by decide),
    (check_and_print_unsorted ⟨false, 0, 0⟩ [1, 2, 3]).2.1 (by decide) (Or.inl rfl)⟩

theorem insR_of_last_le (pre : List Int) (key : Int) (h : ∀ x ∈ pre, x ≤ key) :
    insR pre key = pre ++ [key] := by
  unfold insR
  cases hrev : pre.reverse with
  | nil =>
    have : pre = [] := by simpa using hrev
    subst this
    simp [insRev]
  | cons x xs =>
    have hx : x ∈ pre := by
      have : x ∈ pre.reverse := by rw [hrev]; simp
      simpa using this
    have hle : ¬ x > key := not_lt.mpr (h x hx)
    have hp : pre = (x :: xs).reverse := by rw [← hrev, List.reverse_reverse]
    simp [insRev, hle, hp]

theorem foldl_insR_of_sorted (keys : List Int) :
    ∀ pre : List Int, (pre ++ keys).Sorted (· ≤ ·) → List.foldl insR pre keys = pre ++ keys := by
  induction keys with
  | nil => intro pre _; simp
  | cons k ks ih =>
    intro pre h
    have hk : ∀ x ∈ pre, x ≤ k := by
      intro x hx
      have := List.pairwise_append.mp h
      exact this.2.2 x hx k (List.mem_cons_self _ _)
    rw [List.foldl_cons, insR_of_last_le pre k hk, ih]
    · simp
    · simpa using h

/-- C15: `serial_sort` leaves every array of length 0 or 1 and every non-decreasing array
unchanged, and sorting the output of `serial_sort` again returns that output. -/
theorem serial_sort_idempotent (elements : List Int) :
    (elements.length ≤ 1 → serial_sort elements elements.length = .ok elements) ∧
    (elements.Sorted (· ≤ ·) → serial_sort elements elements.length = .ok elements) ∧
    (∃ out : List Int, serial_sort elements elements.length = .ok out ∧
      serial_sort out out.length = .ok out) := by
  have hsorted : ∀ l : List Int, l.Sorted (· ≤ ·) → serial_sort l l.length = .ok l := by
    intro l hl
    rw [serial_sort_whole, foldl_insR_of_sorted l [] (by simpa using hl)]
    simp
  refine ⟨?_, hsorted elements, ?_⟩
  · intro h1
    apply hsorted
    match elements, h1 with
    | [], _ => simp
    | [x], _ => simp
  · refine ⟨List.foldl insR [] elements, serial_sort_whole elements, ?_⟩
    exact hsorted _ (foldl_insR_sorted elements [] (by simp))

/-- Witness of C15 on `[7]`, `[1,2,2,5]` and `[3,1,2]`. -/
theorem serial_sort_idempotent_witness :
    serial_sort [7] 1 = .ok [7] ∧
    serial_sort [1, 2, 2, 5] 4 = .ok [1, 2, 2, 5] ∧
    (∃ out : List Int, serial_sort [3, 1, 2] 3 = .ok out ∧
      serial_sort out out.length = .ok out) :=
  ⟨(serial_sort_idempotent [7]).1 (by decide),
    (serial_sort_idempotent [1, 2, 2, 5]).2.1 (by decide),
    (serial_sort_idempotent [3, 1, 2]).2.2⟩

theorem onlyOob_ok {α : Type} (a : α) : OnlyOob (Except.ok a : Except Err α) := by
  intro e h
  cases h

theorem onlyOob_oob {α : Type} : OnlyOob (Except.error Err.oob : Except Err α) := by
  intro e h
  cases h
  rfl

theorem onlyOob_bind {α β : Type} (r : Except Err α) (f : α → Except Err β)
    (h1 : OnlyOob r) (h2 : ∀ a, r = .ok a → OnlyOob (f a)) : OnlyOob (r >>= f) := by
  cases r with
  | error e =>
    intro e2 h
    simp only [bind, Except.bind] at h
    cases h
    exact h1 e rfl
  | ok a =>
    simpa [bind, Except.bind] using h2 a rfl

theorem rd_onlyOob {α : Type} (a : List α) (i : Nat) : OnlyOob (rd a i) := by
  unfold rd
  split
  · exact onlyOob_ok _
  · exact onlyOob_oob

theorem wr_onlyOob {α : Type} (a : List α) (i : Nat) (x : α) : OnlyOob (wr a i x) := by
  unfold wr
  split
  · exact onlyOob_ok _
  · exact onlyOob_oob

theorem rdI_onlyOob (a : List Int) (i : Int) : OnlyOob (rdI a i) := by
  unfold rdI
  split
  · exact onlyOob_oob
  · exact rd_onlyOob _ _

theorem read_range_onlyOob (a : List Int) (off cnt : Nat) : OnlyOob (read_range a off cnt) := by
  unfold read_range
  split
  · exact onlyOob_ok _
  · exact onlyOob_oob

theorem merge_loop1_onlyOob (v1 : List Int) (n1 : Nat) (v2 : List Int) (n2 : Nat) :
    ∀ (fuel : Nat) (s : MergeState), (n1 - s.i) + (n2 - s.j) ≤ fuel →
      OnlyOob (merge_loop1 v1 n1 v2 n2 fuel s) := by
  intro fuel
  induction fuel with
  | zero =>
    intro s hf
    unfold merge_loop1
    have : ¬ (s.i < n1 ∧ s.j < n2) := by omega
    simp only [this, if_false]
    exact onlyOob_ok _
  | succ f ih =>
    intro s hf
    unfold merge_loop1
    split
    · rename_i hc
      refine onlyOob_bind _ _ (rd_onlyOob _ _) (fun a _ => ?_)
      refine onlyOob_bind _ _ (rd_onlyOob _ _) (fun b _ => ?_)
      split
      · exact onlyOob_bind _ _ (wr_onlyOob _ _ _) (fun r _ => ih _ (by simp; omega))
      · exact onlyOob_bind _ _ (wr_onlyOob _ _ _) (fun r _ => ih _ (by simp; omega))
    · exact onlyOob_ok _

theorem merge_loop2_onlyOob (v1 : List Int) (n1 : Nat) :
    ∀ (fuel : Nat) (s : MergeState), n1 - s.i ≤ fuel → OnlyOob (merge_loop2 v1 n1 fuel s) := by
  intro fuel
  induction fuel with
  | zero =>
    intro s hf
    unfold merge_loop2
    have : ¬ (s.i < n1) := by omega
    simp only [this, if_false]
    exact onlyOob_ok _
  | succ f ih =>
    intro s hf
    unfold merge_loop2
    split
    · refine onlyOob_bind _ _ (rd_onlyOob _ _) (fun a _ => ?_)
      exact onlyOob_bind _ _ (wr_onlyOob _ _ _) (fun r _ => ih _ (by simp; omega))
    · exact onlyOob_ok _

theorem merge_loop3_onlyOob (v2 : List Int) (n2 : Nat) :
    ∀ (fuel : Nat) (s : MergeState), n2 - s.j ≤ fuel → OnlyOob (merge_loop3 v2 n2 fuel s) := by
  intro fuel
  induction fuel with
  | zero =>
    intro s hf
    unfold merge_loop3
    have : ¬ (s.j < n2) := by omega
    simp only [this, if_false]
    exact onlyOob_ok _
  | succ f ih =>
    intro s hf
    unfold merge_loop3
    split
    · refine onlyOob_bind _ _ (rd_onlyOob _ _) (fun a _ => ?_)
      exact onlyOob_bind _ _ (wr_onlyOob _ _ _) (fun r _ => ih _ (by simp; omega))
    · exact onlyOob_ok _

theorem merge_ascending_onlyOob (v1 : List Int) (n1 : Nat) (v2 : List Int) (n2 : Nat)
    (result : List Int) : OnlyOob (merge_ascending v1 n1 v2 n2 result) := by
  unfold merge_ascending merge_run
  refine onlyOob_bind _ _ ?_ (fun s _ => onlyOob_ok _)
  refine onlyOob_bind _ _ (merge_loop1_onlyOob _ _ _ _ _ _ (by simp)) (fun s1 _ => ?_)
  refine onlyOob_bind _ _ (merge_loop2_onlyOob _ _ _ _ (by omega)) (fun s2 _ => ?_)
  exact merge_loop3_onlyOob _ _ _ _ (by omega)

theorem bsearch_loop_onlyOob (e : List Int) (pivot : Int) :
    ∀ (fuel left right : Nat), right - left ≤ fuel →
      OnlyOob (bsearch_loop e pivot fuel left right) := by
  intro fuel
  induction fuel with
  | zero =>
    intro l r hf
    unfold bsearch_loop
    have : ¬ (l < r) := by omega
    simp only [this, if_false]
    exact onlyOob_ok _
  | succ f ih =>
    intro l r hf
    unfold bsearch_loop
    split
    · refine onlyOob_bind _ _ (rd_onlyOob _ _) (fun a _ => ?_)
      split
      · exact ih _ _ (by omega)
      · exact ih _ _ (by omega)
    · exact onlyOob_ok _

theorem local_partition_onlyOob (pivot : Int) (size rank : Nat) (p : Proc) :
    OnlyOob (local_partition pivot size rank p) := by
  unfold local_partition partition_sizes
  refine onlyOob_bind _ _ ?_ (fun lr _ => ?_)
  · exact onlyOob_bind _ _ (bsearch_loop_onlyOob _ _ _ _ _ (by omega)) (fun l _ => onlyOob_ok _)
  · exact onlyOob_bind _ _ (read_range_onlyOob _ _ _) (fun s _ => onlyOob_ok _)

theorem local_partition_partner (pivot : Int) (size rank : Nat) (p : Proc) (l : Local)
    (h : local_partition pivot size rank p = .ok l) :
    l.partner_rank = partner_rank rank size := by
  unfold local_partition at h
  cases h1 : partition_sizes p.elements p.n pivot with
  | error e => simp [h1, bind, Except.bind] at h
  | ok lr =>
    obtain ⟨a, b⟩ := lr
    simp only [h1, bind, Except.bind] at h
    split at h
    · cases h
    · simp only [pure, Except.pure] at h
      cases h
      rfl

theorem exchange_merge_onlyOob (locals : List Local) (me : Local)
    (h : me.partner_rank < locals.length) : OnlyOob (exchange_merge locals me) := by
  unfold exchange_merge
  rw [List.getElem?_eq_getElem h]
  simp only
  split
  · exact onlyOob_bind _ _ (merge_ascending_onlyOob _ _ _ _ _) (fun s _ => onlyOob_ok _)
  · exact onlyOob_bind _ _ (merge_ascending_onlyOob _ _ _ _ _) (fun s _ => onlyOob_ok _)

theorem mapE_onlyOob {α β : Type} (f : α → Except Err β) :
    ∀ l : List α, (∀ a ∈ l, OnlyOob (f a)) → OnlyOob (mapE f l) := by
  intro l
  induction l with
  | nil => intro _; exact onlyOob_ok _
  | cons a as ih =>
    intro h
    unfold mapE
    refine onlyOob_bind _ _ (h a (List.mem_cons_self _ _)) (fun b _ => ?_)
    exact onlyOob_bind _ _ (ih (fun x hx => h x (List.mem_cons_of_mem _ hx)))
      (fun bs _ => onlyOob_ok _)

theorem mapRanks_onlyOob {α β : Type} (f : Nat → α → Except Err β)
    (hf : ∀ r a, OnlyOob (f r a)) :
    ∀ (l : List α) (rank : Nat), OnlyOob (mapRanks f rank l) := by
  intro l
  induction l with
  | nil => intro rank; exact onlyOob_ok _
  | cons a as ih =>
    intro rank
    unfold mapRanks
    refine onlyOob_bind _ _ (hf rank a) (fun b _ => ?_)
    exact onlyOob_bind _ _ (ih _) (fun bs _ => onlyOob_ok _)

theorem mapE_length {α β : Type} (f : α → Except Err β) :
    ∀ (l : List α) (bs : List β), mapE f l = .ok bs → bs.length = l.length := by
  intro l
  induction l with
  | nil =>
    intro bs h
    simp [mapE] at h
    simp [← h]
  | cons a as ih =>
    intro bs h
    unfold mapE at h
    cases h1 : f a with
    | error e => simp [h1, bind, Except.bind] at h
    | ok b =>
      cases h2 : mapE f as with
      | error e => simp [h1, h2, bind, Except.bind] at h
      | ok bs2 =>
        simp [h1, h2, bind, Except.bind, pure, Except.pure] at h
        subst h
        simp [ih bs2 h2]

/-- Members of a successful `mapRanks` come from a rank in range and a member of the list. -/
theorem mapRanks_ok {α β : Type} (f : Nat → α → Except Err β) :
    ∀ (l : List α) (rank : Nat) (bs : List β), mapRanks f rank l = .ok bs →
      bs.length = l.length ∧
      ∀ b ∈ bs, ∃ r a, rank ≤ r ∧ r < rank + l.length ∧ a ∈ l ∧ f r a = .ok b := by
  intro l
  induction l with
  | nil =>
    intro rank bs h
    simp [mapRanks] at h
    subst h
    simp
  | cons a as ih =>
    intro rank bs h
    unfold mapRanks at h
    cases h1 : f rank a with
    | error e => simp [h1, bind, Except.bind] at h
    | ok b =>
      cases h2 : mapRanks f (rank + 1) as with
      | error e => simp [h1, h2, bind, Except.bind] at h
      | ok bs2 =>
        simp [h1, h2, bind, Except.bind, pure, Except.pure] at h
        subst h
        obtain ⟨hl, hm⟩ := ih (rank + 1) bs2 h2
        refine ⟨by simp [hl], ?_⟩
        intro x hx
        rcases List.mem_cons.mp hx with rfl | hx
        · exact ⟨rank, a, le_refl _, by simp, List.mem_cons_self _ _, h1⟩
        · obtain ⟨r, a2, h3, h4, h5, h6⟩ := hm x hx
          exact ⟨r, a2, by omega, by simp; omega, List.mem_cons_of_mem _ h5, h6⟩

theorem partner_rank_lt (size rank : Nat) (heven : size % 2 = 0) (hr : rank < size) :
    partner_rank rank size < size := by
  by_cases hc : rank < size / 2 <;> simp [partner_rank, color, hc] <;> omega

/-- Unfolding of `global_sort_level` on a non-empty group. -/
theorem global_sort_level_cons (sp : PivotSelector) (ps : Int) (p0 : Proc) (rest : List Proc)
    (size : Nat) (hsz : size = (p0 :: rest).length) :
    global_sort_level sp ps (p0 :: rest) =
      (rdI p0.elements (sp ps p0.elements p0.n size) >>= fun pivot =>
        mapRanks (local_partition pivot size) 0 (p0 :: rest) >>= fun locals =>
          mapE (exchange_merge locals) locals) := by
  subst hsz
  rfl

/-- On a group of even size, steps 3.1 to 3.4 can only fail through a memory access outside
the allocated cells. -/
theorem global_sort_level_onlyOob (sp : PivotSelector) (ps : Int) (group : List Proc)
    (heven : group.length % 2 = 0) : OnlyOob (global_sort_level sp ps group) := by
  cases group with
  | nil => exact onlyOob_ok _
  | cons p0 rest =>
    obtain ⟨size, hsz⟩ : ∃ size, size = (p0 :: rest).length := ⟨_, rfl⟩
    rw [global_sort_level_cons sp ps p0 rest size hsz]
    rw [← hsz] at heven
    refine onlyOob_bind _ _ (rdI_onlyOob _ _) (fun pivot _ => ?_)
    refine onlyOob_bind _ _ (mapRanks_onlyOob _ (local_partition_onlyOob _ _) _ _)
      (fun ls hls => ?_)
    obtain ⟨hlen, hmem⟩ := mapRanks_ok _ _ _ _ hls
    refine mapE_onlyOob _ _ (fun me hme => exchange_merge_onlyOob _ _ ?_)
    obtain ⟨r, a, _, hr, _, hra⟩ := hmem me hme
    rw [local_partition_partner _ _ _ _ _ hra, hlen, ← hsz]
    exact partner_rank_lt size r heven (by omega)

theorem global_sort_level_length (sp : PivotSelector) (ps : Int) (group next : List Proc)
    (h : global_sort_level sp ps group = .ok next) : next.length = group.length := by
  cases group with
  | nil =>
    simp [global_sort_level] at h
    subst h
    rfl
  | cons p0 rest =>
    obtain ⟨size, hsz⟩ : ∃ size, size = (p0 :: rest).length := ⟨_, rfl⟩
    rw [global_sort_level_cons sp ps p0 rest size hsz] at h
    cases h1 : rdI p0.elements (sp ps p0.elements p0.n size) with
    | error e => simp [h1, bind, Except.bind] at h
    | ok pivot =>
      cases h2 : mapRanks (local_partition pivot size) 0 (p0 :: rest) with
      | error e => simp [h1, h2, bind, Except.bind] at h
      | ok ls =>
        simp only [h1, h2, bind, Except.bind] at h
        rw [mapE_length _ _ _ h, (mapRanks_ok _ _ _ _ h2).1]

theorem bind_eq_ok {α β : Type} (r : Except Err α) (f : α → Except Err β) (b : β)
    (h : (r >>= f) = .ok b) : ∃ a, r = .ok a ∧ f a = .ok b := by
  cases r with
  | error e => simp [bind, Except.bind] at h
  | ok a => exact ⟨a, rfl, by simpa [bind, Except.bind] using h⟩

theorem bind_eq_error {α β : Type} (r : Except Err α) (f : α → Except Err β) (e : Err)
    (h : (r >>= f) = .error e) : r = .error e ∨ ∃ a, r = .ok a ∧ f a = .error e := by
  cases r with
  | error e2 =>
    left
    simpa [bind, Except.bind] using h
  | ok a => exact Or.inr ⟨a, rfl, by simpa [bind, Except.bind] using h⟩

theorem odd_group_false_iff (size : Nat) :
    odd_group size = false ↔ (size ≤ 1 ∨ size % 2 = 0) := by
  simp [odd_group]
  omega

theorem global_sort_odd (sp : PivotSelector) (ps : Int) (fuel : Nat) (group : List Proc)
    (h1 : 1 < group.length) (h2 : group.length % 2 = 1) :
    global_sort sp ps (fuel + 1) group = .error .abort := by
  have : odd_group group.length = true := by simp [odd_group]; omega
  simp [global_sort, this]

theorem global_sort_one (sp : PivotSelector) (ps : Int) (fuel : Nat) (group : List Proc)
    (h1 : group.length = 1) : global_sort sp ps (fuel + 1) group = .ok group := by
  have o1 : odd_group 1 = false := by decide
  unfold global_sort
  simp [o1, h1]

theorem global_sort_even (sp : PivotSelector) (ps : Int) (fuel : Nat) (group : List Proc)
    (h1 : 2 ≤ group.length) (h2 : group.length % 2 = 0) :
    global_sort sp ps (fuel + 1) group =
      (global_sort_level sp ps group >>= fun next =>
        global_sort sp ps fuel (next.take (group.length / 2)) >>= fun lo =>
          global_sort sp ps fuel (next.drop (group.length / 2)) >>= fun hi =>
            pure (lo ++ hi)) := by
  have : odd_group group.length = false := (odd_group_false_iff _).mpr (Or.inr h2)
  have h3 : group.length ≠ 1 := by omega
  have h4 : group.length ≠ 0 := by omega
  simp [global_sort, this, h3, h4]

theorem two_pow_cases (k : Nat) : (k = 0 ∧ 2 ^ k = 1) ∨ (0 < k ∧ 2 ^ k = 2 * 2 ^ (k - 1)) := by
  cases k with
  | zero => left; simp
  | succ m => right; simp [pow_succ]; omega

/-- With a budget of at least the group size, `global_sort` fails only through the
configuration error or a memory access outside the allocated cells. -/
theorem global_sort_error (sp : PivotSelector) (ps : Int) :
    ∀ (fuel : Nat) (group : List Proc), 1 ≤ group.length → group.length ≤ fuel →
      ∀ e, global_sort sp ps fuel group = .error e → e = .abort ∨ e = .oob := by
  intro fuel
  induction fuel with
  | zero => intro group h1 h2; omega
  | succ f ih =>
    intro group h1 h2 e he
    rcases Nat.lt_or_ge 1 group.length with hgt | hle
    · rcases Nat.mod_two_eq_zero_or_one group.length with heven | hodd
      · rw [global_sort_even sp ps f group hgt heven] at he
        rcases bind_eq_error _ _ _ he with h | ⟨next, hnext, he⟩
        · exact Or.inr (global_sort_level_onlyOob sp ps group heven e h)
        · have hlen := global_sort_level_length sp ps group next hnext
          rcases bind_eq_error _ _ _ he with h | ⟨lo, _, he⟩
          · exact ih _ (by simp [hlen]; omega) (by simp [hlen]; omega) e h
          · rcases bind_eq_error _ _ _ he with h | ⟨hi, _, he⟩
            · exact ih _ (by simp [hlen]; omega) (by simp [hlen]; omega) e h
            · simp [pure, Except.pure] at he
      · rw [global_sort_odd sp ps f group hgt hodd] at he
        cases he
        exact Or.inl rfl
    · rw [global_sort_one sp ps f group (by omega)] at he
      cases he

/-- A run of `global_sort` that reaches the base case on every member started from a group
whose size is a power of two. -/
theorem global_sort_ok_pow (sp : PivotSelector) (ps : Int) :
    ∀ (fuel : Nat) (group res : List Proc), 1 ≤ group.length →
      global_sort sp ps fuel group = .ok res → ∃ k, group.length = 2 ^ k := by
  intro fuel
  induction fuel with
  | zero => intro group res _ h; simp [global_sort] at h
  | succ f ih =>
    intro group res h1 h
    rcases Nat.lt_or_ge 1 group.length with hgt | hle
    · rcases Nat.mod_two_eq_zero_or_one group.length with heven | hodd
      · rw [global_sort_even sp ps f group hgt heven] at h
        obtain ⟨next, hnext, h⟩ := bind_eq_ok _ _ _ h
        have hlen := global_sort_level_length sp ps group next hnext
        obtain ⟨lo, hlo, h⟩ := bind_eq_ok _ _ _ h
        obtain ⟨k, hk2⟩ := ih _ lo (by simp [hlen]; omega) hlo
        have hl : (next.take (group.length / 2)).length = group.length / 2 := by
          simp [hlen]; omega
        rw [hl] at hk2
        exact ⟨k + 1, by rw [pow_succ]; omega⟩
      · rw [global_sort_odd sp ps f group hgt hodd] at h
        cases h
    · have hs : group.length = 1 := by omega
      exact ⟨0, by simp [hs]⟩

/-- On a group whose size is a power of two the configuration error is never taken. -/
theorem global_sort_pow_noAbort (sp : PivotSelector) (ps : Int) :
    ∀ (fuel : Nat) (group : List Proc) (k : Nat), group.length = 2 ^ k →
      global_sort sp ps fuel group ≠ .error .abort := by
  intro fuel
  induction fuel with
  | zero => intro group k _; simp [global_sort]
  | succ f ih =>
    intro group k hk he
    rcases two_pow_cases k with ⟨_, h0⟩ | ⟨hkpos, hs⟩
    · rw [global_sort_one sp ps f group (by omega)] at he
      cases he
    · have hpos : 1 ≤ 2 ^ (k - 1) := Nat.one_le_two_pow
      rw [global_sort_even sp ps f group (by omega) (by omega)] at he
      rcases bind_eq_error _ _ _ he with h | ⟨next, hnext, he⟩
      · exact global_sort_level_noAbort sp ps group h
      · have hlen := global_sort_level_length sp ps group next hnext
        rcases bind_eq_error _ _ _ he with h | ⟨lo, _, he⟩
        · exact ih _ (k - 1) (by simp [hlen]; omega) h
        · rcases bind_eq_error _ _ _ he with h | ⟨hi, _, he⟩
          · exact ih _ (k - 1) (by simp [hlen]; omega) h
          · simp [pure, Except.pure] at he

/-- On an ascending slice the binary search returns the number of elements below the pivot. -/
theorem partition_sizes_sorted (e : List Int) (pivot : Int) (hs : e.Sorted (· ≤ ·)) :
    partition_sizes e e.length pivot =
      .ok (e.countP (fun x => decide (x < pivot)),
        e.length - e.countP (fun x => decide (x < pivot))) ∧
    e.take (e.countP (fun x => decide (x < pivot))) = e.filter (fun x => decide (x < pivot)) ∧
    e.drop (e.countP (fun x => decide (x < pivot))) = e.filter (fun x => decide (pivot ≤ x)) := by
  obtain ⟨l, hl, _, h2, h3, h4⟩ := bsearch_loop_spec e pivot hs e.length 0
    e.length (Nat.zero_le _) (le_refl _) (by omega)
    (fun idx _ h => absurd h (Nat.not_lt_zero _))
    (fun idx h hle => absurd h (by omega))
  have hc := countP_of_split e pivot l h2 h3 h4
  have hl2 : l = e.countP (fun x => decide (x < pivot)) := by
    rw [List.countP_eq_length_filter, ← hc.1]
    simp [h2]
  subst hl2
  refine ⟨?_, hc.1, hc.2⟩
  simp [partition_sizes, hl, bind, Except.bind, pure, Except.pure]

theorem local_partition_sorted (pivot : Int) (size rank : Nat) (p : Proc)
    (hs : p.elements.Sorted (· ≤ ·)) (hn : p.n = p.elements.length) :
    local_partition pivot size rank p = .ok (local_of pivot size rank p) := by
  obtain ⟨e, n⟩ := p
  simp only at hs hn
  subst hn
  have hps := (partition_sizes_sorted e pivot hs).1
  have hle : e.countP (fun x => decide (x < pivot)) ≤ e.length := List.countP_le_length _
  by_cases hc : color rank size = 0
  · have hr : read_range e (e.countP (fun x => decide (x < pivot)))
        (e.length - e.countP (fun x => decide (x < pivot))) =
        .ok (e.drop (e.countP (fun x => decide (x < pivot)))) := by
      have h1 : e.countP (fun x => decide (x < pivot)) +
          (e.length - e.countP (fun x => decide (x < pivot))) ≤ e.length := by omega
      simp only [read_range, h1, if_true]
      rw [List.take_of_length_le (by simp)]
    simp only [local_partition, hps, bind, Except.bind, hc, if_true, send_count, hr, pure,
      Except.pure, local_of]
  · have hr : read_range e 0 (e.countP (fun x => decide (x < pivot))) =
        .ok (e.take (e.countP (fun x => decide (x < pivot)))) := by
      have h1 : 0 + e.countP (fun x => decide (x < pivot)) ≤ e.length := by omega
      simp only [read_range, h1, if_true, List.drop_zero]
    simp only [local_partition, hps, bind, Except.bind, hc, if_false, send_count, hr, pure,
      Except.pure, local_of]

theorem mapRanks_pure {α β : Type} (f : Nat → α → Except Err β) (g : Nat → α → β) :
    ∀ (l : List α) (rank : Nat), (∀ r a, a ∈ l → f r a = .ok (g r a)) →
      mapRanks f rank l = .ok (rankMap g rank l) := by
  intro l
  induction l with
  | nil => intro rank _; rfl
  | cons a as ih =>
    intro rank h
    simp only [mapRanks, rankMap, h rank a (List.mem_cons_self _ _),
      ih (rank + 1) (fun r x hx => h r x (List.mem_cons_of_mem _ hx)), bind, Except.bind, pure,
      Except.pure]

theorem rankMap_length {α β : Type} (g : Nat → α → β) :
    ∀ (l : List α) (rank : Nat), (rankMap g rank l).length = l.length := by
  intro l
  induction l with
  | nil => intro _; rfl
  | cons a as ih => intro rank; simp [rankMap, ih]

theorem rankMap_getElem? {α β : Type} (g : Nat → α → β) :
    ∀ (l : List α) (rank i : Nat), (rankMap g rank l)[i]? = (l[i]?).map (g (rank + i)) := by
  intro l
  induction l with
  | nil => intro _ _; simp [rankMap]
  | cons a as ih =>
    intro rank i
    cases i with
    | zero => simp [rankMap]
    | succ j =>
      have e1 : rank + 1 + j = rank + (j + 1) := by omega
      simp only [rankMap, List.getElem?_cons_succ, ih, e1]

theorem mapE_getElem? {α β : Type} (f : α → Except Err β) :
    ∀ (l : List α) (bs : List β), mapE f l = .ok bs →
      ∀ (i : Nat) (a : α), l[i]? = some a → ∃ b, bs[i]? = some b ∧ f a = .ok b := by
  intro l
  induction l with
  | nil => intro bs _ i a h; simp at h
  | cons x xs ih =>
    intro bs h i a ha
    unfold mapE at h
    obtain ⟨b, hb, h⟩ := bind_eq_ok _ _ _ h
    obtain ⟨bs2, hbs2, h⟩ := bind_eq_ok _ _ _ h
    simp only [pure, Except.pure, Except.ok.injEq] at h
    subst h
    cases i with
    | zero =>
      simp only [List.getElem?_cons_zero, Option.some.injEq] at ha
      subst ha
      exact ⟨b, by simp, hb⟩
    | succ j =>
      simp only [List.getElem?_cons_succ] at ha ⊢
      exact ih bs2 hbs2 j a ha

theorem wr_ok_length {α : Type} (a : List α) (i : Nat) (x : α) (r : List α)
    (h : wr a i x = .ok r) : i < a.length ∧ r.length = a.length := by
  unfold wr at h
  split at h
  · rename_i hi
    cases h
    exact ⟨hi, by simp⟩
  · cases h

theorem merge_loop1_ok (v1 : List Int) (n1 : Nat) (v2 : List Int) (n2 : Nat) :
    ∀ (fuel : Nat) (s t : MergeState), merge_loop1 v1 n1 v2 n2 fuel s = .ok t →
      s.k ≤ s.result.length →
      t.k ≤ t.result.length ∧ t.result.length = s.result.length ∧
      t.k + s.i + s.j = s.k + t.i + t.j := by
  intro fuel
  induction fuel with
  | zero =>
    intro s t h hk
    unfold merge_loop1 at h
    split at h
    · cases h
    · cases h
      exact ⟨hk, rfl, by omega⟩
  | succ f ih =>
    intro s t h hk
    unfold merge_loop1 at h
    split at h
    · obtain ⟨a, _, h⟩ := bind_eq_ok _ _ _ h
      obtain ⟨b, _, h⟩ := bind_eq_ok _ _ _ h
      split at h
      · obtain ⟨r, hr, h⟩ := bind_eq_ok _ _ _ h
        obtain ⟨hlt, hlen⟩ := wr_ok_length _ _ _ _ hr
        obtain ⟨h1, h2, h3⟩ := ih _ t h (by simp only; omega)
        simp only at h2 h3
        exact ⟨h1, by omega, by omega⟩
      · obtain ⟨r, hr, h⟩ := bind_eq_ok _ _ _ h
        obtain ⟨hlt, hlen⟩ := wr_ok_length _ _ _ _ hr
        obtain ⟨h1, h2, h3⟩ := ih _ t h (by simp only; omega)
        simp only at h2 h3
        exact ⟨h1, by omega, by omega⟩
    · cases h
      exact ⟨hk, rfl, by omega⟩

theorem merge_loop2_ok (v1 : List Int) (n1 : Nat) :
    ∀ (fuel : Nat) (s t : MergeState), merge_loop2 v1 n1 fuel s = .ok t →
      s.k ≤ s.result.length →
      t.k ≤ t.result.length ∧ t.result.length = s.result.length ∧
      t.k + s.i = s.k + t.i ∧ t.j = s.j ∧ n1 ≤ t.i := by
  intro fuel
  induction fuel with
  | zero =>
    intro s t h hk
    unfold merge_loop2 at h
    split at h
    · cases h
    · cases h
      exact ⟨hk, rfl, by omega, rfl, by omega⟩
  | succ f ih =>
    intro s t h hk
    unfold merge_loop2 at h
    split at h
    · obtain ⟨a, _, h⟩ := bind_eq_ok _ _ _ h
      obtain ⟨r, hr, h⟩ := bind_eq_ok _ _ _ h
      obtain ⟨hlt, hlen⟩ := wr_ok_length _ _ _ _ hr
      obtain ⟨h1, h2, h3, h4, h5⟩ := ih _ t h (by simp only; omega)
      simp only at h2 h3 h4
      exact ⟨h1, by omega, by omega, h4, h5⟩
    · cases h
      exact ⟨hk, rfl, by omega, rfl, by omega⟩

theorem merge_loop3_ok (v2 : List Int) (n2 : Nat) :
    ∀ (fuel : Nat) (s t : MergeState), merge_loop3 v2 n2 fuel s = .ok t →
      s.k ≤ s.result.length →
      t.k ≤ t.result.length ∧ t.result.length = s.result.length ∧
      t.k + s.j = s.k + t.j ∧ t.i = s.i ∧ n2 ≤ t.j := by
  intro fuel
  induction fuel with
  | zero =>
    intro s t h hk
    unfold merge_loop3 at h
    split at h
    · cases h
    · cases h
      exact ⟨hk, rfl, by omega, rfl, by omega⟩
  | succ f ih =>
    intro s t h hk
    unfold merge_loop3 at h
    split at h
    · obtain ⟨a, _, h⟩ := bind_eq_ok _ _ _ h
      obtain ⟨r, hr, h⟩ := bind_eq_ok _ _ _ h
      obtain ⟨hlt, hlen⟩ := wr_ok_length _ _ _ _ hr
      obtain ⟨h1, h2, h3, h4, h5⟩ := ih _ t h (by simp only; omega)
      simp only at h2 h3 h4
      exact ⟨h1, by omega, by omega, h4, h5⟩
    · cases h
      exact ⟨hk, rfl, by omega, rfl, by omega⟩

/-- A merge that returns normally had room for `n1 + n2` cells in `result`. -/
theorem merge_ascending_ok_room (v1 : List Int) (n1 : Nat) (v2 : List Int) (n2 : Nat)
    (result m : List Int) (h : merge_ascending v1 n1 v2 n2 result = .ok m) :
    n1 + n2 ≤ result.length := by
  unfold merge_ascending at h
  obtain ⟨s, hs, _⟩ := bind_eq_ok _ _ _ h
  unfold merge_run at hs
  obtain ⟨s1, hs1, hs⟩ := bind_eq_ok _ _ _ hs
  obtain ⟨s2, hs2, hs3⟩ := bind_eq_ok _ _ _ hs
  obtain ⟨a1, a2, a3⟩ := merge_loop1_ok _ _ _ _ _ _ _ hs1 (by simp)
  obtain ⟨b1, b2, b3, b4, b5⟩ := merge_loop2_ok _ _ _ _ _ hs2 a1
  obtain ⟨c1, c2, c3, c4, c5⟩ := merge_loop3_ok _ _ _ _ _ hs3 b1
  simp only at a2 a3
  omega

theorem local_of_low (pivot : Int) (size rank : Nat) (p : Proc) (hc : rank < size / 2) :
    local_of pivot size rank p =
      ⟨p.elements, p.elements.countP (fun x => decide (x < pivot)),
        p.n - p.elements.countP (fun x => decide (x < pivot)), 0, rank + size / 2,
        p.n - p.elements.countP (fun x => decide (x < pivot)),
        p.elements.drop (p.elements.countP (fun x => decide (x < pivot)))⟩ := by
  simp [local_of, color, partner_rank, send_count, hc]

theorem local_of_high (pivot : Int) (size rank : Nat) (p : Proc) (hc : ¬ rank < size / 2) :
    local_of pivot size rank p =
      ⟨p.elements, p.elements.countP (fun x => decide (x < pivot)),
        p.n - p.elements.countP (fun x => decide (x < pivot)), 1, rank - size / 2,
        p.elements.countP (fun x => decide (x < pivot)),
        p.elements.take (p.elements.countP (fun x => decide (x < pivot)))⟩ := by
  simp [local_of, color, partner_rank, send_count, hc]

theorem rankMap_lookup (pivot : Int) (group : List Proc) (r : Nat) (hr : r < group.length) :
    (rankMap (local_of pivot group.length) 0 group)[r]? =
      some (local_of pivot group.length r group[r]) := by
  rw [rankMap_getElem?, List.getElem?_eq_getElem hr]
  simp

/-- Step 3.4 on a member of an even group of ascending slices: if the merge returns, the
new slice has `new_n` cells, is ascending, and lies below the pivot in the low half and at
or above it in the high half. -/
theorem exchange_merge_sorted (pivot : Int) (group : List Proc)
    (heven : group.length % 2 = 0)
    (H : ∀ p ∈ group, p.elements.Sorted (· ≤ ·) ∧ p.n = p.elements.length)
    (r : Nat) (hr : r < group.length) (q : Proc)
    (hq : exchange_merge (rankMap (local_of pivot group.length) 0 group)
      (local_of pivot group.length r group[r]) = .ok q) :
    q.elements.length = q.n ∧ q.elements.Sorted (· ≤ ·) ∧
    (r < group.length / 2 → ∀ x ∈ q.elements, x < pivot) ∧
    (group.length / 2 ≤ r → ∀ x ∈ q.elements, pivot ≤ x) := by
  obtain ⟨hs, hn⟩ := H group[r] (List.getElem_mem _)
  have hsplit := partition_sizes_sorted group[r].elements pivot hs
  have hL : group[r].elements.countP (fun x => decide (x < pivot)) ≤
      group[r].elements.length := List.countP_le_length _
  by_cases hc : r < group.length / 2
  · have hrp : r + group.length / 2 < group.length := by omega
    have hcp : ¬ (r + group.length / 2 < group.length / 2) := by omega
    obtain ⟨hs2, hn2⟩ := H group[r + group.length / 2] (List.getElem_mem _)
    have hL2 : group[r + group.length / 2].elements.countP (fun x => decide (x < pivot)) ≤
        group[r + group.length / 2].elements.length := List.countP_le_length _
    rw [local_of_low pivot _ r _ hc] at hq
    simp only [exchange_merge, rankMap_lookup pivot group _ hrp,
      local_of_high pivot _ _ _ hcp, new_n, if_true] at hq
    obtain ⟨m, hm, hq⟩ := bind_eq_ok _ _ _ hq
    simp only [pure, Except.pure, Except.ok.injEq] at hq
    subst hq
    have hroom := merge_ascending_ok_room _ _ _ _ _ _ hm
    simp only [List.length_replicate] at hroom
    have h0 : group[r + group.length / 2].elements.countP (fun x => decide (x < pivot)) = 0 := by
      omega
    rw [h0] at hm
    rw [merge_ascending_spec _ _ _ _ _ hL (Nat.zero_le _) (by simp)] at hm
    simp only [List.take_zero, List.merge_right, Nat.add_zero, List.drop_replicate,
      Nat.sub_self, List.replicate_zero, List.append_nil, Except.ok.injEq] at hm
    subst hm
    refine ⟨by simp [hL], ?_, ?_, fun h => absurd hc (by omega)⟩
    · exact hs.sublist (List.take_sublist _ _)
    · intro _ x hx
      rw [hsplit.2.1] at hx
      simpa using (List.mem_filter.mp hx).2
  · have hrp : r - group.length / 2 < group.length := by omega
    have hcp : r - group.length / 2 < group.length / 2 := by omega
    obtain ⟨hs2, hn2⟩ := H group[r - group.length / 2] (List.getElem_mem _)
    have hsplit2 := partition_sizes_sorted group[r - group.length / 2].elements pivot hs2
    have hL2 : group[r - group.length / 2].elements.countP (fun x => decide (x < pivot)) ≤
        group[r - group.length / 2].elements.length := List.countP_le_length _
    rw [local_of_high pivot _ r _ hc] at hq
    simp only [exchange_merge, rankMap_lookup pivot group _ hrp,
      local_of_low pivot _ _ _ hcp, new_n] at hq
    simp only [show ¬ ((1 : Nat) = 0) by decide, if_false] at hq
    obtain ⟨m, hm, hq⟩ := bind_eq_ok _ _ _ hq
    simp only [pure, Except.pure, Except.ok.injEq] at hq
    subst hq
    rw [merge_ascending_spec _ _ _ _ _ (by simp [hn2]) (by simp [hn])
      (by simp; omega)] at hm
    simp only [Except.ok.injEq] at hm
    subst hm
    have ht1 : ∀ (l : List Int) (a b : Nat), a = l.length → (l.drop b).take (a - b) = l.drop b := by
      intro l a b hab
      apply List.take_of_length_le
      simp [hab]
    rw [ht1 _ _ _ hn2, ht1 _ _ _ hn]
    have hd : List.drop (group[r - group.length / 2].n -
        group[r - group.length / 2].elements.countP (fun x => decide (x < pivot)) +
        (group[r].n - group[r].elements.countP (fun x => decide (x < pivot))))
        (List.replicate (group[r].n - group[r].elements.countP (fun x => decide (x < pivot)) +
          (group[r - group.length / 2].n -
            group[r - group.length / 2].elements.countP (fun x => decide (x < pivot)))) (0 : Int)) =
        [] := by
      apply List.drop_eq_nil_of_le
      simp
      omega
    rw [hd, List.append_nil]
    refine ⟨?_, ?_, fun h => absurd h hc, ?_⟩
    · simp [List.length_merge, hn, hn2]
      omega
    · exact merge_leInt_sorted _ _ (hs2.sublist (List.drop_sublist _ _))
        (hs.sublist (List.drop_sublist _ _))
    · intro _ x hx
      rw [List.mem_merge, hsplit2.2.2, hsplit.2.2] at hx
      rcases hx with hx | hx <;> simpa using (List.mem_filter.mp hx).2

/-- Outcome of steps 3.1 to 3.4 on an even group of ascending slices, when they return. -/
theorem global_sort_level_ok (sp : PivotSelector) (ps : Int) (p0 : Proc) (rest : List Proc)
    (heven : (p0 :: rest).length % 2 = 0)
    (H : ∀ p ∈ p0 :: rest, p.elements.Sorted (· ≤ ·) ∧ p.n = p.elements.length)
    (next : List Proc) (h : global_sort_level sp ps (p0 :: rest) = .ok next) :
    ∃ pivot, rdI p0.elements (sp ps p0.elements p0.n (p0 :: rest).length) = .ok pivot ∧
      next.length = (p0 :: rest).length ∧
      ∀ r q, next[r]? = some q →
        q.elements.length = q.n ∧ q.elements.Sorted (· ≤ ·) ∧
        (r < (p0 :: rest).length / 2 → ∀ x ∈ q.elements, x < pivot) ∧
        ((p0 :: rest).length / 2 ≤ r → ∀ x ∈ q.elements, pivot ≤ x) := by
  have hlen := global_sort_level_length sp ps _ next h
  rw [global_sort_level_cons sp ps p0 rest _ rfl] at h
  obtain ⟨pivot, hpivot, h⟩ := bind_eq_ok _ _ _ h
  refine ⟨pivot, hpivot, hlen, ?_⟩
  rw [mapRanks_pure _ (local_of pivot (p0 :: rest).length) _ 0
    (fun r a ha => local_partition_sorted pivot _ r a (H a ha).1 (H a ha).2)] at h
  simp only [bind, Except.bind] at h
  intro r q hq
  have hr : r < (p0 :: rest).length := by
    rw [← hlen]
    exact (List.getElem?_eq_some.mp hq).1
  obtain ⟨b, hb, hex⟩ := mapE_getElem? _ _ _ h r _ (rankMap_lookup pivot (p0 :: rest) r hr)
  rw [hq] at hb
  cases hb
  exact exchange_merge_sorted pivot (p0 :: rest) heven H r hr q hex

theorem final_slice_eq (q : Proc) (h : q.elements.length = q.n) : final_slice q = q.elements := by
  unfold final_slice
  exact List.take_of_length_le (by omega)

theorem mapE_pure {α β : Type} (f : α → Except Err β) (g : α → β) :
    ∀ l : List α, (∀ a ∈ l, f a = .ok (g a)) → mapE f l = .ok (l.map g) := by
  intro l
  induction l with
  | nil => intro _; rfl
  | cons a as ih =>
    intro h
    simp only [mapE, h a (List.mem_cons_self _ _),
      ih (fun x hx => h x (List.mem_cons_of_mem _ hx)), bind, Except.bind, pure, Except.pure,
      List.map_cons]

theorem foldl_insR_length (e : List Int) : (List.foldl insR [] e).length = e.length := by
  have := (foldl_insR_perm e []).length_eq
  simpa using this

/-- The group built by `main`: sorted shards, every member passing the total count. -/
theorem main_group_eq (dist : Distributor) (input : List Int) (size : Nat) :
    main_group dist input size =
      .ok (((dist input input.length size).map (List.foldl insR [])).map
        (fun elements => ⟨elements, input.length⟩)) := by
  unfold main_group
  simp only []
  rw [mapE_pure _ (List.foldl insR []) _ (fun a _ => serial_sort_whole a)]
  rfl

theorem main_eq_main_group (dist : Distributor) (sp : PivotSelector) (input : List Int)
    (size : Nat) :
    main dist sp input size =
      (main_group dist input size >>= fun g => global_sort sp 1 g.length g) := by
  unfold main main_group
  simp only []
  cases mapE (fun elements => serial_sort elements elements.length)
      (dist input input.length size) with
  | error e => rfl
  | ok sorted => simp [bind, Except.bind, pure, Except.pure]

/-- C12 (counterexample): after one level on four members, each high-half member passes
`new_n = 3` to the recursive call while its sub-group holds 6 elements. -/
theorem new_n_not_subgroup_count :
    ∃ next, global_sort_level (fun _ _ n _ => ((n / 2 : Nat) : Int)) 1
        [⟨[1, 5], 2⟩, ⟨[2, 6], 2⟩, ⟨[7, 8], 2⟩, ⟨[9, 10], 2⟩] = .ok next ∧
      ∃ q ∈ next.drop (4 / 2),
        q.n ≠ ((next.drop (4 / 2)).map (fun p => (final_slice p).length)).sum :=
  ⟨[⟨[1], 1⟩, ⟨[2], 1⟩, ⟨[5, 7, 8], 3⟩, ⟨[6, 9, 10], 3⟩], by decide,
    ⟨[5, 7, 8], 3⟩, by decide, by decide⟩

theorem rdI_nil (i : Int) : rdI [] i = .error .oob := by
  unfold rdI rd
  split <;> simp

/-- C18 (failing input): four members, the pivot is the first cell of rank 0 (index 0 of
`[0, n)`).  The first level returns and leaves ranks 0 and 1 with empty slices; in their
sub-group of size 2 the pivot read of rank 0 is outside the array for every strategy. -/
theorem pivot_read_empty_slice :
    global_sort_level (fun _ _ _ _ => 0) 1
      [⟨[1, 2], 2⟩, ⟨[3, 4], 2⟩, ⟨[5, 6], 2⟩, ⟨[7, 8], 2⟩] =
      .ok [⟨[], 0⟩, ⟨[], 0⟩, ⟨[1, 2, 5, 6], 4⟩, ⟨[3, 4, 7, 8], 4⟩] ∧
    (∀ (select_pivot : PivotSelector) (pivot_strategy : Int),
      rdI [] (select_pivot pivot_strategy [] 0 2) = .error .oob ∧
      global_sort_level select_pivot pivot_strategy [⟨[], 0⟩, ⟨[], 0⟩] = .error .oob) ∧
    global_sort (fun _ _ _ _ => 0) 1 4
      [⟨[1, 2], 2⟩, ⟨[3, 4], 2⟩, ⟨[5, 6], 2⟩, ⟨[7, 8], 2⟩] = .error .oob := by
  refine ⟨by decide, ?_, by decide⟩
  intro sp ps
  refine ⟨rdI_nil _, ?_⟩
  rw [global_sort_level_cons sp ps ⟨[], 0⟩ [⟨[], 0⟩] 2 rfl]
  simp [rdI_nil, bind, Except.bind]

/-- With `n` larger than twice the number of allocated cells, the first read of the binary
search, at index `n / 2`, is outside the array. -/
theorem partition_sizes_oob (e : List Int) (n : Nat) (pivot : Int) (hn : 1 ≤ n)
    (he : e.length ≤ n / 2) : partition_sizes e n pivot = .error .oob := by
  obtain ⟨f, rfl⟩ : ∃ f, n = f + 1 := ⟨n - 1, by omega⟩
  have hrd : rd e ((f + 1) / 2) = .error .oob := by
    have : e[(f + 1) / 2]? = none := List.getElem?_eq_none he
    simp only [rd, this]
  simp [partition_sizes, bsearch_loop, hrd, bind, Except.bind]

theorem local_partition_oob (pivot : Int) (size rank : Nat) (p : Proc) (hn : 1 ≤ p.n)
    (he : p.elements.length ≤ p.n / 2) : local_partition pivot size rank p = .error .oob := by
  simp [local_partition, partition_sizes_oob p.elements p.n pivot hn he, bind, Except.bind]

theorem mapRanks_oob {α β : Type} (f : Nat → α → Except Err β)
    (hf : ∀ r a, OnlyOob (f r a)) :
    ∀ (l : List α) (rank : Nat), (∃ a ∈ l, ∀ r, f r a = .error .oob) →
      mapRanks f rank l = .error .oob := by
  intro l
  induction l with
  | nil => intro rank h; simp at h
  | cons a as ih =>
    intro rank h
    unfold mapRanks
    cases h1 : f rank a with
    | error e =>
      rw [hf rank a e h1]
      rfl
    | ok b =>
      obtain ⟨x, hx, hbad⟩ := h
      rcases List.mem_cons.mp hx with rfl | hx
      · rw [hbad rank] at h1
        cases h1
      · simp [ih (rank + 1) ⟨x, hx, hbad⟩, bind, Except.bind]

theorem exists_small_of_sum (l : List Nat) (h : 2 ≤ l.length) : ∃ x ∈ l, 2 * x ≤ l.sum := by
  match l, h with
  | a :: b :: rest, _ =>
    by_cases hab : a ≤ b
    · exact ⟨a, by simp, by simp; omega⟩
    · exact ⟨b, by simp, by simp; omega⟩

/-- C19 (general form of the failure): whenever `main` runs on an even number of at least
two shards that partition a non-empty input, some rank's binary search, entered with the
total count as `n`, reads outside its shard, for every distribution and pivot strategy. -/
theorem main_reads_outside_shard (distribute_from_root : Distributor)
    (select_pivot : PivotSelector) (input : List Int) (size : Nat)
    (hn : 1 ≤ input.length)
    (h2 : 2 ≤ (distribute_from_root input input.length size).length)
    (heven : (distribute_from_root input input.length size).length % 2 = 0)
    (hd : ((distribute_from_root input input.length size).map List.length).sum = input.length) :
    main distribute_from_root select_pivot input size = .error .oob := by
  rw [main_eq_main_group, main_group_eq]
  simp only [bind, Except.bind]
  generalize hg : ((distribute_from_root input input.length size).map (List.foldl insR [])).map
    (fun elements => (⟨elements, input.length⟩ : Proc)) = g
  have hglen : g.length = (distribute_from_root input input.length size).length := by
    rw [← hg]; simp
  obtain ⟨x, hx, hsmall⟩ := exists_small_of_sum _ (by simpa using h2 :
    2 ≤ ((distribute_from_root input input.length size).map List.length).length)
  rw [hd] at hsmall
  obtain ⟨shard, hshard, rfl⟩ := List.mem_map.mp hx
  have hbad : ∃ p ∈ g, 1 ≤ p.n ∧ p.elements.length ≤ p.n / 2 := by
    refine ⟨⟨List.foldl insR [] shard, input.length⟩, ?_, hn, ?_⟩
    · rw [← hg]
      simp only [List.mem_map]
      exact ⟨_, ⟨shard, hshard, rfl⟩, rfl⟩
    · simp only [foldl_insR_length]
      omega
  obtain ⟨f, hf⟩ : ∃ f, g.length = f + 1 := ⟨g.length - 1, by omega⟩
  rw [hf, global_sort_even select_pivot 1 f g (by omega) (by omega)]
  have hlevel : global_sort_level select_pivot 1 g = .error .oob := by
    cases g with
    | nil => simp at hf
    | cons p0 rest =>
      rw [global_sort_level_cons select_pivot 1 p0 rest _ rfl]
      cases hr : rdI p0.elements (select_pivot 1 p0.elements p0.n (p0 :: rest).length) with
      | error e =>
        rw [rdI_error _ _ _ hr]
        rfl
      | ok pivot =>
        simp only [bind, Except.bind]
        rw [mapRanks_oob _ (local_partition_onlyOob pivot _) _ 0]
        obtain ⟨p, hp, hp1, hp2⟩ := hbad
        exact ⟨p, hp, fun r => local_partition_oob pivot _ r p hp1 hp2⟩
  simp [hlevel, bind, Except.bind]

/-- Witness of C19: the input `[4,2,9,1,7]` on two processes holding `[4,2,9]` and `[1,7]`. -/
theorem main_reads_outside_shard_witness :
    main (fun _ _ _ => [[4, 2, 9], [1, 7]]) (fun _ _ n _ => ((n / 2 : Nat) : Int))
      [4, 2, 9, 1, 7] 2 = .error .oob :=
  main_reads_outside_shard (fun _ _ _ => [[4, 2, 9], [1, 7]])
    (fun _ _ n _ => ((n / 2 : Nat) : Int)) [4, 2, 9, 1, 7] 2
    (by decide) (by decide) (by decide) (by decide)

theorem rankMap_mem (pivot : Int) (group : List Proc) (a : Local)
    (ha : a ∈ rankMap (local_of pivot group.length) 0 group) :
    ∃ i, ∃ (hi : i < group.length), a = local_of pivot group.length i group[i] := by
  obtain ⟨i, hi, hia⟩ := List.getElem_of_mem ha
  rw [rankMap_length] at hi
  refine ⟨i, hi, ?_⟩
  have h1 := rankMap_lookup pivot group i hi
  rw [List.getElem?_eq_getElem (by rw [rankMap_length]; exact hi)] at h1
  rw [← hia]
  exact Option.some.inj h1

theorem exchange_merge_locals_onlyOob (pivot : Int) (group : List Proc)
    (heven : group.length % 2 = 0) (a : Local)
    (ha : a ∈ rankMap (local_of pivot group.length) 0 group) :
    OnlyOob (exchange_merge (rankMap (local_of pivot group.length) 0 group) a) := by
  obtain ⟨i, hi, rfl⟩ := rankMap_mem pivot group a ha
  apply exchange_merge_onlyOob
  rw [rankMap_length]
  exact partner_rank_lt group.length i heven hi

/-- Step 3.4 for a high-half member of an even group of ascending slices: the merge of the
part received from the partner with the retained part, in `right_arr_size + recv_count`
cells. -/
theorem exchange_merge_high (pivot : Int) (group : List Proc)
    (heven : group.length % 2 = 0)
    (H : ∀ p ∈ group, p.elements.Sorted (· ≤ ·) ∧ p.n = p.elements.length)
    (r : Nat) (me partner : Proc) (hr : group.length / 2 ≤ r)
    (hme : group[r]? = some me) (hpartner : group[r - group.length / 2]? = some partner) :
    exchange_merge (rankMap (local_of pivot group.length) 0 group)
      (local_of pivot group.length r me) =
      .ok ⟨List.merge (partner.elements.filter (fun x => decide (pivot ≤ x)))
          (me.elements.filter (fun x => decide (pivot ≤ x))) leInt,
        (me.elements.filter (fun x => decide (pivot ≤ x))).length +
          (partner.elements.filter (fun x => decide (pivot ≤ x))).length⟩ := by
  obtain ⟨hr2, hme2⟩ := List.getElem?_eq_some.mp hme
  obtain ⟨hrp, hp2⟩ := List.getElem?_eq_some.mp hpartner
  have hc : ¬ r < group.length / 2 := by omega
  have hcp : r - group.length / 2 < group.length / 2 := by omega
  obtain ⟨hs, hn⟩ := H me (hme2 ▸ List.getElem_mem _)
  obtain ⟨hs2, hn2⟩ := H partner (hp2 ▸ List.getElem_mem _)
  have hsplit := partition_sizes_sorted me.elements pivot hs
  have hsplit2 := partition_sizes_sorted partner.elements pivot hs2
  have hL : me.elements.countP (fun x => decide (x < pivot)) ≤ me.elements.length :=
    List.countP_le_length _
  have hL2 : partner.elements.countP (fun x => decide (x < pivot)) ≤ partner.elements.length :=
    List.countP_le_length _
  have hlook : (rankMap (local_of pivot group.length) 0 group)[r - group.length / 2]? =
      some (local_of pivot group.length (r - group.length / 2) partner) := by
    rw [rankMap_lookup pivot group _ hrp, hp2]
  have hf1 : (me.elements.filter (fun x => decide (pivot ≤ x))).length =
      me.n - me.elements.countP (fun x => decide (x < pivot)) := by
    rw [← hsplit.2.2, List.length_drop, hn]
  have hf2 : (partner.elements.filter (fun x => decide (pivot ≤ x))).length =
      partner.n - partner.elements.countP (fun x => decide (x < pivot)) := by
    rw [← hsplit2.2.2, List.length_drop, hn2]
  rw [local_of_high pivot _ r _ hc]
  simp only [exchange_merge, hlook, local_of_low pivot _ _ _ hcp, new_n]
  simp only [show ¬ ((1 : Nat) = 0) by decide, if_false]
  rw [merge_ascending_spec _ _ _ _ _ (by simp [hn2]) (by simp [hn]) (by simp; omega)]
  have ht1 : ∀ (l : List Int) (a b : Nat), a = l.length → (l.drop b).take (a - b) = l.drop b := by
    intro l a b hab
    apply List.take_of_length_le
    simp [hab]
  rw [ht1 _ _ _ hn2, ht1 _ _ _ hn]
  have hd : List.drop (partner.n - partner.elements.countP (fun x => decide (x < pivot)) +
        (me.n - me.elements.countP (fun x => decide (x < pivot))))
        (List.replicate (me.n - me.elements.countP (fun x => decide (x < pivot)) +
          (partner.n - partner.elements.countP (fun x => decide (x < pivot)))) (0 : Int)) =
        [] := by
    apply List.drop_eq_nil_of_le
    simp
    omega
  rw [hd, List.append_nil, hsplit.2.2, hsplit2.2.2, ← hf1, ← hf2]
  rfl

/-- Step 3.4 for a low-half member of an even group whose partner holds an element below
the pivot: the merge writes behind the `left_arr_size` cells allocated. -/
theorem exchange_merge_low_oob (pivot : Int) (group : List Proc)
    (heven : group.length % 2 = 0)
    (r : Nat) (me partner : Proc) (hr : r < group.length / 2)
    (hme : group[r]? = some me) (hpartner : group[r + group.length / 2]? = some partner)
    (x : Int) (hx : x ∈ partner.elements) (hxp : x < pivot) :
    exchange_merge (rankMap (local_of pivot group.length) 0 group)
      (local_of pivot group.length r me) = .error .oob := by
  obtain ⟨hr2, hme2⟩ := List.getElem?_eq_some.mp hme
  obtain ⟨hrp, hp2⟩ := List.getElem?_eq_some.mp hpartner
  have hmem : local_of pivot group.length r me ∈ rankMap (local_of pivot group.length) 0 group := by
    have h1 := rankMap_lookup pivot group r hr2
    rw [hme2] at h1
    exact List.getElem?_mem h1
  have honly := exchange_merge_locals_onlyOob pivot group heven _ hmem
  cases hq : exchange_merge (rankMap (local_of pivot group.length) 0 group)
      (local_of pivot group.length r me) with
  | error e => rw [honly e hq]
  | ok q =>
    exfalso
    have hcp : ¬ (r + group.length / 2 < group.length / 2) := by omega
    have hlook : (rankMap (local_of pivot group.length) 0 group)[r + group.length / 2]? =
        some (local_of pivot group.length (r + group.length / 2) partner) := by
      rw [rankMap_lookup pivot group _ hrp, hp2]
    rw [local_of_low pivot _ r _ hr] at hq
    simp only [exchange_merge, hlook, local_of_high pivot _ _ _ hcp, new_n, if_true] at hq
    obtain ⟨m, hm, _⟩ := bind_eq_ok _ _ _ hq
    have hroom := merge_ascending_ok_room _ _ _ _ _ _ hm
    simp only [List.length_replicate] at hroom
    have hpos : 0 < partner.elements.countP (fun x => decide (x < pivot)) :=
      List.countP_pos_iff.mpr ⟨x, hx, by simpa using hxp⟩
    omega

theorem mapE_oob {α β : Type} (f : α → Except Err β) :
    ∀ l : List α, (∀ a ∈ l, OnlyOob (f a)) → (∃ a ∈ l, f a = .error .oob) →
      mapE f l = .error .oob := by
  intro l
  induction l with
  | nil => intro _ h; simp at h
  | cons a as ih =>
    intro hall h
    unfold mapE
    cases h1 : f a with
    | error e =>
      rw [hall a (List.mem_cons_self _ _) e h1]
      rfl
    | ok b =>
      obtain ⟨x, hx, hbad⟩ := h
      rcases List.mem_cons.mp hx with rfl | hx
      · rw [hbad] at h1
        cases h1
      · simp [ih (fun y hy => hall y (List.mem_cons_of_mem _ hy)) ⟨x, hx, hbad⟩, bind,
          Except.bind]

/-- On an even group of ascending slices, a level in which a high-half member holds an
element below the pivot stops on a write outside the allocated cells. -/
theorem global_sort_level_oob_of_crossing (sp : PivotSelector) (ps : Int) (p0 : Proc)
    (rest : List Proc) (P : Int)
    (heven : (p0 :: rest).length % 2 = 0)
    (H : ∀ p ∈ p0 :: rest, p.elements.Sorted (· ≤ ·) ∧ p.n = p.elements.length)
    (hP : rdI p0.elements (sp ps p0.elements p0.n (p0 :: rest).length) = .ok P)
    (r : Nat) (member : Proc) (hr : (p0 :: rest).length / 2 ≤ r)
    (hmember : (p0 :: rest)[r]? = some member)
    (x : Int) (hx : x ∈ member.elements) (hxp : x < P) :
    global_sort_level sp ps (p0 :: rest) = .error .oob := by
  obtain ⟨hr2, _⟩ := List.getElem?_eq_some.mp hmember
  rw [global_sort_level_cons sp ps p0 rest _ rfl, hP]
  simp only [bind, Except.bind]
  rw [mapRanks_pure _ (local_of P (p0 :: rest).length) _ 0
    (fun r a ha => local_partition_sorted P _ r a (H a ha).1 (H a ha).2)]
  simp only
  apply mapE_oob
  · intro a ha
    exact exchange_merge_locals_onlyOob P (p0 :: rest) heven a ha
  · have hlow : r - (p0 :: rest).length / 2 < (p0 :: rest).length := by omega
    refine ⟨local_of P (p0 :: rest).length (r - (p0 :: rest).length / 2)
      (p0 :: rest)[r - (p0 :: rest).length / 2], ?_, ?_⟩
    · exact List.getElem?_mem (rankMap_lookup P (p0 :: rest) _ hlow)
    · refine exchange_merge_low_oob P (p0 :: rest) heven _ _ member (by omega)
        (List.getElem?_eq_getElem hlow) ?_ x hx hxp
      have e1 : r - (p0 :: rest).length / 2 + (p0 :: rest).length / 2 = r := by omega
      rw [e1]
      exact hmember

/-- C11 (failing input, general form): in an even group of ascending slices (`n` the slice
length), take a low-half member whose partner holds an element below the pivot.  Steps 3.2
and 3.3 return; the member retains `left_arr_size` cells and receives `recv_count > 0`,
but `new_n = left_arr_size`, so the merge of step 3.4 writes outside the cells allocated
and no new slice is produced.  The same merge call on `left_arr_size + recv_count` cells
returns an ascending slice. -/
theorem low_half_merge_overflows (pivot : Int) (group : List Proc)
    (heven : group.length % 2 = 0)
    (H : ∀ p ∈ group, p.elements.Sorted (· ≤ ·) ∧ p.n = p.elements.length)
    (r : Nat) (me partner : Proc) (hr : r < group.length / 2)
    (hme : group[r]? = some me) (hpartner : group[r + group.length / 2]? = some partner)
    (x : Int) (hx : x ∈ partner.elements) (hxp : x < pivot) :
    mapRanks (local_partition pivot group.length) 0 group =
      .ok (rankMap (local_of pivot group.length) 0 group) ∧
    (local_of pivot group.length r me).color = 0 ∧
    0 < (local_of pivot group.length (r + group.length / 2) partner).send_count ∧
    new_n 0 (local_of pivot group.length r me).left_arr_size
        (local_of pivot group.length r me).right_arr_size
        (local_of pivot group.length (r + group.length / 2) partner).send_count =
      (local_of pivot group.length r me).left_arr_size ∧
    exchange_merge (rankMap (local_of pivot group.length) 0 group)
      (local_of pivot group.length r me) = .error .oob ∧
    ∃ m, merge_ascending me.elements (local_of pivot group.length r me).left_arr_size
        (local_of pivot group.length (r + group.length / 2) partner).sent
        (local_of pivot group.length (r + group.length / 2) partner).send_count
        (List.replicate ((local_of pivot group.length r me).left_arr_size +
          (local_of pivot group.length (r + group.length / 2) partner).send_count) 0) = .ok m ∧
      m.Sorted (· ≤ ·) := by
  obtain ⟨hr2, hme2⟩ := List.getElem?_eq_some.mp hme
  obtain ⟨hrp, hp2⟩ := List.getElem?_eq_some.mp hpartner
  obtain ⟨hs, hn⟩ := H me (hme2 ▸ List.getElem_mem _)
  obtain ⟨hs2, hn2⟩ := H partner (hp2 ▸ List.getElem_mem _)
  have hcp : ¬ (r + group.length / 2 < group.length / 2) := by omega
  have hpos : 0 < partner.elements.countP (fun x => decide (x < pivot)) :=
    List.countP_pos_iff.mpr ⟨x, hx, by simpa using hxp⟩
  have hL : me.elements.countP (fun x => decide (x < pivot)) ≤ me.elements.length :=
    List.countP_le_length _
  have hL2 : partner.elements.countP (fun x => decide (x < pivot)) ≤
      partner.elements.length := List.countP_le_length _
  refine ⟨?_, ?_, ?_, ?_, ?_, ?_⟩
  · exact mapRanks_pure _ (local_of pivot group.length) _ 0
      (fun r a ha => local_partition_sorted pivot _ r a (H a ha).1 (H a ha).2)
  · rw [local_of_low pivot _ r _ hr]
  · rw [local_of_high pivot _ _ _ hcp]
    exact hpos
  · simp [new_n]
  · exact exchange_merge_low_oob pivot group heven r me partner hr hme hpartner x hx hxp
  · rw [local_of_low pivot _ r _ hr, local_of_high pivot _ _ _ hcp]
    simp only
    rw [merge_ascending_spec _ _ _ _ _ hL (by simp [hL2]) (by simp)]
    refine ⟨_, rfl, ?_⟩
    have hd : List.drop (me.elements.countP (fun x => decide (x < pivot)) +
        partner.elements.countP (fun x => decide (x < pivot)))
        (List.replicate (me.elements.countP (fun x => decide (x < pivot)) +
          partner.elements.countP (fun x => decide (x < pivot))) (0 : Int)) = [] := by
      apply List.drop_eq_nil_of_le
      simp
    rw [hd, List.append_nil]
    exact merge_leInt_sorted _ _ (hs.sublist (List.take_sublist _ _))
      ((hs2.sublist (List.take_sublist _ _)).sublist (List.take_sublist _ _))

/-- Witness of C11: `[1,3,5,8]` and `[4,14,17,19]` with pivot 5; rank 0 keeps `[1,3]`,
receives `[4]`, and has two cells for the three elements. -/
theorem low_half_merge_overflows_witness :
    exchange_merge
      (rankMap (local_of 5 2) 0 [⟨[1, 3, 5, 8], 4⟩, ⟨[4, 14, 17, 19], 4⟩])
      (local_of 5 2 0 ⟨[1, 3, 5, 8], 4⟩) = .error .oob ∧
    merge_ascending [1, 3, 5, 8] 2 [4] 1 [0, 0] = .error .oob ∧
    merge_ascending [1, 3, 5, 8] 2 [4] 1 [0, 0, 0] = .ok [1, 3, 4] ∧
    global_sort_level (fun _ _ n _ => ((n / 2 : Nat) : Int)) 1
      [⟨[1, 3, 5, 8], 4⟩, ⟨[4, 14, 17, 19], 4⟩] = .error .oob :=
  ⟨(low_half_merge_overflows 5 [⟨[1, 3, 5, 8], 4⟩, ⟨[4, 14, 17, 19], 4⟩] (by decide)
      (by decide) 0 ⟨[1, 3, 5, 8], 4⟩ ⟨[4, 14, 17, 19], 4⟩ (by decide) rfl rfl 4
      (by decide) (by decide)).2.2.2.2.1,
    by decide, by decide, by decide⟩

/-- C16 (failing input, general form): on an even group of ascending slices (`n` the slice
length) with broadcast pivot `P`, whenever a high-half member holds an element below `P`,
the element that has to move to the low sub-group, the level stops on a write outside the
allocated cells instead of leaving the two sub-groups separated by `P`. -/
theorem global_sort_level_crossing_fails (select_pivot : PivotSelector) (pivot_strategy : Int)
    (p0 : Proc) (rest : List Proc) (P : Int)
    (heven : (p0 :: rest).length % 2 = 0)
    (H : ∀ p ∈ p0 :: rest, p.elements.Sorted (· ≤ ·) ∧ p.n = p.elements.length)
    (hP : rdI p0.elements (select_pivot pivot_strategy p0.elements p0.n (p0 :: rest).length) =
      .ok P)
    (r : Nat) (member : Proc) (hr : (p0 :: rest).length / 2 ≤ r)
    (hmember : (p0 :: rest)[r]? = some member)
    (x : Int) (hx : x ∈ member.elements) (hxp : x < P) :
    global_sort_level select_pivot pivot_strategy (p0 :: rest) = .error .oob :=
  global_sort_level_oob_of_crossing select_pivot pivot_strategy p0 rest P heven H hP r member
    hr hmember x hx hxp

/-- Witness of C16: four members, pivot 5, rank 2 holds 3. -/
theorem global_sort_level_crossing_fails_witness :
    global_sort_level (fun _ _ n _ => ((n / 2 : Nat) : Int)) 1
      [⟨[1, 5], 2⟩, ⟨[2, 6], 2⟩, ⟨[3, 8], 2⟩, ⟨[9, 10], 2⟩] = .error .oob :=
  global_sort_level_crossing_fails (fun _ _ n _ => ((n / 2 : Nat) : Int)) 1
    ⟨[1, 5], 2⟩ [⟨[2, 6], 2⟩, ⟨[3, 8], 2⟩, ⟨[9, 10], 2⟩] 5 (by decide) (by decide) (by decide)
    2 ⟨[3, 8], 2⟩ (by decide) rfl 3 (by decide) (by decide)

/-- C17 (failing input, general form): a group of even size, in particular of size
`2, 4, 8, …`, whose slices are ascending and in which a high-half member holds an element
below the pivot of the first level, ends on a write outside the allocated cells for every
budget: the run reaches neither the single-member base case nor the configuration error. -/
theorem global_sort_crossing_fails (select_pivot : PivotSelector) (pivot_strategy : Int)
    (fuel : Nat) (p0 : Proc) (rest : List Proc) (P : Int)
    (heven : (p0 :: rest).length % 2 = 0)
    (H : ∀ p ∈ p0 :: rest, p.elements.Sorted (· ≤ ·) ∧ p.n = p.elements.length)
    (hP : rdI p0.elements (select_pivot pivot_strategy p0.elements p0.n (p0 :: rest).length) =
      .ok P)
    (r : Nat) (member : Proc) (hr : (p0 :: rest).length / 2 ≤ r)
    (hmember : (p0 :: rest)[r]? = some member)
    (x : Int) (hx : x ∈ member.elements) (hxp : x < P) :
    global_sort select_pivot pivot_strategy (fuel + 1) (p0 :: rest) = .error .oob := by
  have h2 : 2 ≤ (p0 :: rest).length := by
    have : 1 ≤ (p0 :: rest).length := by simp
    omega
  rw [global_sort_even select_pivot pivot_strategy fuel _ h2 heven,
    global_sort_level_oob_of_crossing select_pivot pivot_strategy p0 rest P heven H hP r member
      hr hmember x hx hxp]
  rfl

/-- Witness of C17: the two-member group `[2,6]`, `[1,9]` with pivot 6. -/
theorem global_sort_crossing_fails_witness :
    global_sort (fun _ _ n _ => ((n / 2 : Nat) : Int)) 1 2 [⟨[2, 6], 2⟩, ⟨[1, 9], 2⟩] =
      .error .oob :=
  global_sort_crossing_fails (fun _ _ n _ => ((n / 2 : Nat) : Int)) 1 1
    ⟨[2, 6], 2⟩ [⟨[1, 9], 2⟩] 6 (by decide) (by decide) (by decide)
    1 ⟨[1, 9], 2⟩ (by decide) rfl 1 (by decide) (by decide)

/-- C12 (amended): in the call made by `main` every member passes the total element count,
which is the Global Count of the whole group when the shards partition the input.  At a
recursive call a high-half member of an even group of ascending slices passes
`new_n = right_arr_size + recv_count`: the number of its own elements at or above the pivot
plus the number of such elements of its partner, which are exactly the elements of its new
Local Slice. -/
theorem global_sort_n_own_count (distribute_from_root : Distributor)
    (select_pivot : PivotSelector) (input : List Int) (size : Nat)
    (pivot : Int) (group : List Proc) (r : Nat) (me partner : Proc)
    (hd : ((distribute_from_root input input.length size).map List.length).sum = input.length)
    (heven : group.length % 2 = 0)
    (H : ∀ p ∈ group, p.elements.Sorted (· ≤ ·) ∧ p.n = p.elements.length)
    (hr : group.length / 2 ≤ r)
    (hme : group[r]? = some me) (hpartner : group[r - group.length / 2]? = some partner) :
    (∃ g, main_group distribute_from_root input size = .ok g ∧
      main distribute_from_root select_pivot input size = global_sort select_pivot 1 g.length g ∧
      (∀ p ∈ g, p.n = input.length) ∧
      (g.map (fun p => p.elements.length)).sum = input.length) ∧
    mapRanks (local_partition pivot group.length) 0 group =
      .ok (rankMap (local_of pivot group.length) 0 group) ∧
    ∃ q, exchange_merge (rankMap (local_of pivot group.length) 0 group)
        (local_of pivot group.length r me) = .ok q ∧
      q.n = (local_of pivot group.length r me).right_arr_size +
        (local_of pivot group.length (r - group.length / 2) partner).send_count ∧
      q.n = (me.elements.filter (fun x => decide (pivot ≤ x))).length +
        (partner.elements.filter (fun x => decide (pivot ≤ x))).length ∧
      (final_slice q).Perm (partner.elements.filter (fun x => decide (pivot ≤ x)) ++
        me.elements.filter (fun x => decide (pivot ≤ x))) := by
  obtain ⟨hr2, hme2⟩ := List.getElem?_eq_some.mp hme
  obtain ⟨hrp, hp2⟩ := List.getElem?_eq_some.mp hpartner
  obtain ⟨hs, hn⟩ := H me (hme2 ▸ List.getElem_mem _)
  obtain ⟨hs2, hn2⟩ := H partner (hp2 ▸ List.getElem_mem _)
  have hsplit := partition_sizes_sorted me.elements pivot hs
  have hsplit2 := partition_sizes_sorted partner.elements pivot hs2
  have hc : ¬ r < group.length / 2 := by omega
  have hcp : r - group.length / 2 < group.length / 2 := by omega
  refine ⟨?_, ?_, _, exchange_merge_high pivot group heven H r me partner hr hme hpartner,
    ?_, rfl, ?_⟩
  · refine ⟨_, main_group_eq distribute_from_root input size, ?_, ?_, ?_⟩
    · rw [main_eq_main_group, main_group_eq]
      rfl
    · intro p hp
      simp only [List.mem_map] at hp
      obtain ⟨e, _, rfl⟩ := hp
      rfl
    · refine Eq.trans ?_ hd
      simp only [List.map_map]
      congr 1
      apply List.map_congr_left
      intro a _
      simp [foldl_insR_length]
  · exact mapRanks_pure _ (local_of pivot group.length) _ 0
      (fun r a ha => local_partition_sorted pivot _ r a (H a ha).1 (H a ha).2)
  · rw [local_of_high pivot _ r _ hc, local_of_low pivot _ _ _ hcp]
    simp only
    rw [← hsplit.2.2, ← hsplit2.2.2, List.length_drop, List.length_drop, hn, hn2]
  · rw [final_slice_eq _ (by simp [List.length_merge]; omega)]
    exact List.merge_perm_append leInt

/-- Witness of C12 (amended): two shards of `[5,3,8,1]`; rank 2 of the four-member group
`[1,5]`, `[2,6]`, `[7,8]`, `[9,10]` with pivot 5 and partner rank 0. -/
theorem global_sort_n_own_count_witness :
    (∃ g, main_group (fun _ _ _ => [[5, 3], [8, 1]]) [5, 3, 8, 1] 2 = .ok g ∧
      main (fun _ _ _ => [[5, 3], [8, 1]]) (fun _ _ n _ => ((n / 2 : Nat) : Int)) [5, 3, 8, 1] 2 =
        global_sort (fun _ _ n _ => ((n / 2 : Nat) : Int)) 1 g.length g ∧
      (∀ p ∈ g, p.n = 4) ∧
      (g.map (fun p => p.elements.length)).sum = 4) ∧
    mapRanks (local_partition 5 4) 0 [⟨[1, 5], 2⟩, ⟨[2, 6], 2⟩, ⟨[7, 8], 2⟩, ⟨[9, 10], 2⟩] =
      .ok (rankMap (local_of 5 4) 0 [⟨[1, 5], 2⟩, ⟨[2, 6], 2⟩, ⟨[7, 8], 2⟩, ⟨[9, 10], 2⟩]) ∧
    ∃ q, exchange_merge
        (rankMap (local_of 5 4) 0 [⟨[1, 5], 2⟩, ⟨[2, 6], 2⟩, ⟨[7, 8], 2⟩, ⟨[9, 10], 2⟩])
        (local_of 5 4 2 ⟨[7, 8], 2⟩) = .ok q ∧
      q.n = (local_of 5 4 2 ⟨[7, 8], 2⟩).right_arr_size +
        (local_of 5 4 (2 - 4 / 2) ⟨[1, 5], 2⟩).send_count ∧
      q.n = (([7, 8] : List Int).filter (fun x => decide ((5 : Int) ≤ x))).length +
        (([1, 5] : List Int).filter (fun x => decide ((5 : Int) ≤ x))).length ∧
      (final_slice q).Perm (([1, 5] : List Int).filter (fun x => decide ((5 : Int) ≤ x)) ++
        ([7, 8] : List Int).filter (fun x => decide ((5 : Int) ≤ x))) :=
  global_sort_n_own_count (fun _ _ _ => [[5, 3], [8, 1]]) (fun _ _ n _ => ((n / 2 : Nat) : Int))
    [5, 3, 8, 1] 2 5 [⟨[1, 5], 2⟩, ⟨[2, 6], 2⟩, ⟨[7, 8], 2⟩, ⟨[9, 10], 2⟩] 2 ⟨[7, 8], 2⟩ ⟨[1, 5], 2⟩
    (by decide) (by decide) (by decide) (by decide) rfl rfl

end Quicksort
